import Mathlib

/-!
Verification of the `dug` scan pipeline: the streaming rollup aggregator
(`internal/rollup/stream.go`), the ingester (`internal/db/ingester.go`), the
snapshot manager (`internal/snapshot/manager.go`) and the walker
(`internal/scan/worker.go`), shallowly embedded as pure Lean functions.
Go `int64`/`int` values are modelled as `Int`; Go maps are modelled as
association lists with Go's read-missing-key-yields-zero-value semantics made
explicit via `Option`/`getD`.
-/

namespace Dug

/-! ## Association-list model of Go maps

Go maps have unique keys; `m[k]` on a missing key yields the zero value, which
callers here always handle through `Option`/`getD`.  `minsert` models Go map
assignment, `merase` models `delete(m, k)`, `mlookup` models comma-ok lookup.
-/

abbrev AMap (α : Type) := List (Int × α)

def mlookup {α : Type} : AMap α → Int → Option α
  | [], _ => none
  | (k', v) :: rest, k => if k = k' then some v else mlookup rest k

def merase {α : Type} (m : AMap α) (k : Int) : AMap α :=
  m.filter (fun e => e.1 ≠ k)

def minsert {α : Type} (m : AMap α) (k : Int) (v : α) : AMap α :=
  (k, v) :: merase m k

/-- Boolean membership in a list of ids, modelling Go set-map lookup. -/
def memI (i : Int) : List Int → Bool
  | [] => false
  | j :: rest => i = j || memI i rest

/-! ## Data model (`internal/entry/entry.go`, `internal/rollup/stream.go`) -/

/-- `rollup.DirResult`: a dir-completion record. -/
structure DirResult where
  dirID : Int
  parentID : Int
  fileSize : Int
  fileBlocks : Int
  fileCount : Int
  childCount : Int
  deriving Repr, DecidableEq

/-- `entry.Rollup`: the recursive aggregate emitted per directory. -/
structure Rollup where
  dirID : Int
  totalSize : Int
  totalBlocks : Int
  totalFiles : Int
  totalDirs : Int
  deriving Repr, DecidableEq

/-- `rollup.orphanAgg`: buffered contributions of children that completed
before their parent's dir-completion arrived. -/
structure OrphanAgg where
  total : Rollup
  count : Int
  deriving Repr, DecidableEq

/-- The aggregator state (`rollup.Aggregator`).  Go's `partial` map is named
`partials` here. -/
structure AggState where
  roots : List Int
  parents : AMap Int
  partials : AMap Rollup
  expected : AMap Int
  completed : AMap Int
  orphans : AMap OrphanAgg
  deriving Repr, DecidableEq

/-- `Aggregator.addChildRollup`: fold a completed child into the parent. -/
def addChildRollup (parent child : Rollup) : Rollup :=
  { parent with
    totalSize := parent.totalSize + child.totalSize
    totalBlocks := parent.totalBlocks + child.totalBlocks
    totalFiles := parent.totalFiles + child.totalFiles
    totalDirs := parent.totalDirs + child.totalDirs + 1 }

/-- `Aggregator.addOrphan`: accumulate a completed child under a parent whose
own dir-completion has not arrived yet.  A fresh bucket starts from Go's zero
`orphanAgg` (all totals 0, `DirID` 0). -/
def addOrphan (orphans : AMap OrphanAgg) (parentID : Int) (child : Rollup) :
    AMap OrphanAgg :=
  let agg := (mlookup orphans parentID).getD ⟨⟨0, 0, 0, 0, 0⟩, 0⟩
  let agg' : OrphanAgg :=
    { total :=
        { dirID := agg.total.dirID
          totalSize := agg.total.totalSize + child.totalSize
          totalBlocks := agg.total.totalBlocks + child.totalBlocks
          totalFiles := agg.total.totalFiles + child.totalFiles
          totalDirs := agg.total.totalDirs + child.totalDirs + 1 }
      count := agg.count + 1 }
  minsert orphans parentID agg'

theorem merase_cons {α : Type} (e : Int × α) (rest : AMap α) (k : Int) :
    merase (e :: rest) k =
      if e.1 = k then merase rest k else e :: merase rest k := by
  by_cases h : e.1 = k <;> simp [merase, List.filter_cons, h]

theorem merase_length_le {α : Type} (m : AMap α) (k : Int) :
    (merase m k).length ≤ m.length :=
  List.length_filter_le _ _

theorem merase_length_lt {α : Type} {m : AMap α} {k : Int} {v : α}
    (h : mlookup m k = some v) : (merase m k).length < m.length := by
  induction m with
  | nil => simp [mlookup] at h
  | cons e rest ih =>
    rw [merase_cons]
    by_cases hk : e.1 = k
    · rw [if_pos hk]
      exact Nat.lt_succ_of_le (merase_length_le rest k)
    · have hk' : ¬ (k = e.1) := fun hh => hk hh.symm
      simp only [mlookup, if_neg hk'] at h
      rw [if_neg hk]
      simpa using Nat.succ_lt_succ (ih h)

/-- `Aggregator.markComplete`: emit `dir`'s rollup and cascade completions up
the parent chain.  Channel sends become list appends; the `ctx.Done` branches
(pure cancellation plumbing) are not modelled.  The `none` branch of the first
match is unreachable in Go (it would dereference a nil `*entry.Rollup`). -/
def markComplete (σ : AggState) (dirID : Int) : AggState × List Rollup :=
  match h : mlookup σ.partials dirID with
  | none => (σ, [])
  | some r =>
    let parentID := (mlookup σ.parents dirID).getD 0
    let σ1 : AggState :=
      { σ with
        partials := merase σ.partials dirID
        expected := merase σ.expected dirID
        completed := merase σ.completed dirID
        parents := merase σ.parents dirID }
    if memI dirID σ.roots || parentID == 0 then
      (σ1, [r])
    else
      match h2 : mlookup σ1.partials parentID with
      | some pr =>
        let pr2 := addChildRollup pr r
        let c2 := (mlookup σ1.completed parentID).getD 0 + 1
        let σ2 : AggState :=
          { σ1 with
            partials := minsert σ1.partials parentID pr2
            completed := minsert σ1.completed parentID c2 }
        if c2 < (mlookup σ2.expected parentID).getD 0 then
          (σ2, [r])
        else
          let res := markComplete σ2 parentID
          (res.1, r :: res.2)
      | none =>
        ({ σ1 with orphans := addOrphan σ1.orphans parentID r }, [r])
termination_by σ.partials.length
decreasing_by
  simp only [minsert]
  have h1 : (merase σ.partials dirID).length < σ.partials.length :=
    merase_length_lt h
  have h2' : (merase (merase σ.partials dirID) parentID).length
      < (merase σ.partials dirID).length := merase_length_lt h2
  simpa using Nat.lt_of_lt_of_le (Nat.succ_lt_succ h2') h1

/-- `Aggregator.handleResult`: record a dir-completion, merge any orphan
bucket, and complete the directory if all expected children are in. -/
def handleResult (σ : AggState) (res : DirResult) : AggState × List Rollup :=
  let dirID := res.dirID
  let r0 : Rollup :=
    { dirID := dirID
      totalSize := res.fileSize
      totalBlocks := res.fileBlocks
      totalFiles := res.fileCount
      totalDirs := 0 }
  let σa : AggState :=
    { σ with
      partials := minsert σ.partials dirID r0
      parents := minsert σ.parents dirID res.parentID
      expected := minsert σ.expected dirID res.childCount }
  match mlookup σa.orphans dirID with
  | some orph =>
    let r1 : Rollup :=
      { r0 with
        totalSize := r0.totalSize + orph.total.totalSize
        totalBlocks := r0.totalBlocks + orph.total.totalBlocks
        totalFiles := r0.totalFiles + orph.total.totalFiles
        totalDirs := r0.totalDirs + orph.total.totalDirs }
    let σb : AggState :=
      { σa with
        partials := minsert σa.partials dirID r1
        completed :=
          minsert σa.completed dirID
            ((mlookup σa.completed dirID).getD 0 + orph.count)
        orphans := merase σa.orphans dirID }
    if (mlookup σb.completed dirID).getD 0 ≥ (mlookup σb.expected dirID).getD 0
    then markComplete σb dirID
    else (σb, [])
  | none =>
    if (mlookup σa.completed dirID).getD 0 ≥ (mlookup σa.expected dirID).getD 0
    then markComplete σa dirID
    else (σa, [])

/-- Process a stream of dir-completions, collecting emitted rollups in order. -/
def runFrom (σ : AggState) : List DirResult → AggState × List Rollup
  | [] => (σ, [])
  | r :: rest =>
    let s1 := handleResult σ r
    let s2 := runFrom s1.1 rest
    (s2.1, s1.2 ++ s2.2)

/-- `NewAggregator`. -/
def initAgg (roots : List Int) : AggState :=
  { roots := roots, parents := [], partials := [], expected := [],
    completed := [], orphans := [] }

/-- `Aggregator.Run` on a closed input stream: emit rollups, then fail with an
"incomplete" error when the pending map is non-empty at close. -/
def aggRun (roots : List Int) (input : List DirResult) :
    Except String (List Rollup) :=
  let s := runFrom (initAgg roots) input
  if s.1.partials.length > 0 then
    .error ("rollup aggregator incomplete: " ++
      toString s.1.partials.length ++ " directories pending")
  else
    .ok s.2

example :
    aggRun [1]
      [⟨1, 0, 10, 10, 1, 2⟩, ⟨2, 1, 5, 5, 1, 0⟩, ⟨3, 1, 0, 0, 0, 0⟩] =
    .ok [⟨2, 5, 5, 1, 0⟩, ⟨3, 0, 0, 0, 0⟩, ⟨1, 15, 15, 2, 2⟩] := by
  simp [aggRun, runFrom, handleResult, markComplete, initAgg, minsert, merase,
    mlookup, memI, addChildRollup, addOrphan]

/-! ## Directory trees and canonical rollups

A `DirTree` is the abstract shape of one scanned directory tree: each node
carries its id, its direct file totals (apparent size, disk blocks, file
count) and its immediate subdirectories.  `records t` is the set of
dir-completion records the walker pool emits for `t` (one per node); the
aggregator consumes an arbitrary permutation of it. -/

inductive DirTree : Type where
  | node : Int → Int → Int → Int → List DirTree → DirTree

def DirTree.id : DirTree → Int
  | .node i _ _ _ _ => i

def DirTree.fsize : DirTree → Int
  | .node _ s _ _ _ => s

def DirTree.fblocks : DirTree → Int
  | .node _ _ b _ _ => b

def DirTree.fcount : DirTree → Int
  | .node _ _ _ c _ => c

def DirTree.children : DirTree → List DirTree
  | .node _ _ _ _ cs => cs

mutual

/-- All ids in the subtree rooted at a node (the node's own id first). -/
def subIds : DirTree → List Int
  | .node i _ _ _ cs => i :: subIdsF cs

def subIdsF : List DirTree → List Int
  | [] => []
  | t :: ts => subIds t ++ subIdsF ts

end

mutual

/-- All (parent id, node) pairs of the subtree, the root paired with `p`. -/
def ann (p : Int) : DirTree → List (Int × DirTree)
  | .node i a b c cs => (p, .node i a b c cs) :: annF i cs

def annF (p : Int) : List DirTree → List (Int × DirTree)
  | [] => []
  | t :: ts => ann p t ++ annF p ts

end

mutual

/-- The canonical recursive rollup of a node: direct totals plus the rollups
of all immediate children, a child contributing `total_dirs + 1`
subdirectories. -/
def rollupOf : DirTree → Rollup
  | .node i sz bl fc cs =>
    { dirID := i
      totalSize := sz + sumSize cs
      totalBlocks := bl + sumBlocks cs
      totalFiles := fc + sumFiles cs
      totalDirs := sumDirs cs }

def sumSize : List DirTree → Int
  | [] => 0
  | t :: ts => (rollupOf t).totalSize + sumSize ts

def sumBlocks : List DirTree → Int
  | [] => 0
  | t :: ts => (rollupOf t).totalBlocks + sumBlocks ts

def sumFiles : List DirTree → Int
  | [] => 0
  | t :: ts => (rollupOf t).totalFiles + sumFiles ts

def sumDirs : List DirTree → Int
  | [] => 0
  | t :: ts => ((rollupOf t).totalDirs + 1) + sumDirs ts

end

/-- The dir-completion record a walker emits for node `y` with parent `p`. -/
def recOf (p : Int) (y : DirTree) : DirResult :=
  { dirID := y.id
    parentID := p
    fileSize := y.fsize
    fileBlocks := y.fblocks
    fileCount := y.fcount
    childCount := (y.children.length : Int) }

/-- One dir-completion per node of the tree (root's parent id is 0). -/
def records (t : DirTree) : List DirResult :=
  (ann 0 t).map (fun e => recOf e.1 e.2)

/-! ## Ghost state: what the aggregator's maps hold after a set of arrivals

`S` is the set (as a list) of ids whose dir-completion has been consumed. -/

/-- Every id of `y`'s subtree has arrived: `y`'s rollup is complete. -/
def doneB (S : List Int) (y : DirTree) : Bool :=
  (subIds y).all (fun i => memI i S)

def arrivedB (S : List Int) (y : DirTree) : Bool :=
  memI y.id S

/-- Pending relative to a reckoned-done predicate `D`: arrived, not done. -/
def pendX (S : List Int) (D : DirTree → Bool) (y : DirTree) : Bool :=
  arrivedB S y && !D y

/-- The children of `y` reckoned done by `D`. -/
def kidsX (D : DirTree → Bool) (y : DirTree) : List DirTree :=
  y.children.filter D

def kcountX (D : DirTree → Bool) (y : DirTree) : Int :=
  ((kidsX D y).length : Int)

/-- The in-progress rollup of a pending node: direct totals plus the rollups
of the children reckoned done. -/
def pRollupX (D : DirTree → Bool) (y : DirTree) : Rollup :=
  { dirID := y.id
    totalSize := y.fsize + sumSize (kidsX D y)
    totalBlocks := y.fblocks + sumBlocks (kidsX D y)
    totalFiles := y.fcount + sumFiles (kidsX D y)
    totalDirs := sumDirs (kidsX D y) }

/-- The orphan bucket accumulated for a node that has not arrived yet but some
of whose children have completed (Go zero-value `Rollup`, so `dirID = 0`). -/
def orphX (D : DirTree → Bool) (y : DirTree) : Rollup :=
  { dirID := 0
    totalSize := sumSize (kidsX D y)
    totalBlocks := sumBlocks (kidsX D y)
    totalFiles := sumFiles (kidsX D y)
    totalDirs := sumDirs (kidsX D y) }

def findAnn (t : DirTree) (k : Int) : Option (Int × DirTree) :=
  (ann 0 t).find? (fun e => e.2.id == k)

def specPartialsX (t : DirTree) (S : List Int) (D : DirTree → Bool)
    (k : Int) : Option Rollup :=
  match findAnn t k with
  | some e => if pendX S D e.2 then some (pRollupX D e.2) else none
  | none => none

def specParentX (t : DirTree) (S : List Int) (D : DirTree → Bool)
    (k : Int) : Int :=
  match findAnn t k with
  | some e => if pendX S D e.2 then e.1 else 0
  | none => 0

def specExpectedX (t : DirTree) (S : List Int) (D : DirTree → Bool)
    (k : Int) : Int :=
  match findAnn t k with
  | some e => if pendX S D e.2 then (e.2.children.length : Int) else 0
  | none => 0

def specCompletedX (t : DirTree) (S : List Int) (D : DirTree → Bool)
    (k : Int) : Int :=
  match findAnn t k with
  | some e => if pendX S D e.2 then kcountX D e.2 else 0
  | none => 0

def specOrphansX (t : DirTree) (S : List Int) (D : DirTree → Bool)
    (k : Int) : Option OrphanAgg :=
  match findAnn t k with
  | some e =>
    if arrivedB S e.2 = false ∧ 0 < kcountX D e.2 then
      some ⟨orphX D e.2, kcountX D e.2⟩
    else none
  | none => none

/-- The rollups of all nodes reckoned done by `D`, in preorder. -/
def emittedSpecX (t : DirTree) (D : DirTree → Bool) : List Rollup :=
  ((ann 0 t).filter (fun e => D e.2)).map (fun e => rollupOf e.2)

/-- The aggregator state is extensionally the ghost state for arrival set `S`
and reckoned-done predicate `D`. -/
def StateX (t : DirTree) (S : List Int) (D : DirTree → Bool)
    (σ : AggState) : Prop :=
  (∀ k, mlookup σ.partials k = specPartialsX t S D k) ∧
  (∀ k, (mlookup σ.parents k).getD 0 = specParentX t S D k) ∧
  (∀ k, (mlookup σ.expected k).getD 0 = specExpectedX t S D k) ∧
  (∀ k, (mlookup σ.completed k).getD 0 = specCompletedX t S D k) ∧
  (∀ k, mlookup σ.orphans k = specOrphansX t S D k)

/-- Mid-cascade reckoned-done predicate: done in `S` but not an
ancestor-or-self of the cascade node `x`. -/
def doneD (x : DirTree) (S : List Int) (z : DirTree) : Bool :=
  doneB S z && !memI x.id (subIds z)

/-- The rollups emitted after the arrivals in `S`, in preorder. -/
def emittedSpec (t : DirTree) (S : List Int) : List Rollup :=
  emittedSpecX t (doneB S)

/-- The quiescent invariant: state maps match the ghost state for `S`. -/
def MapsMatch (t : DirTree) (S : List Int) (σ : AggState) : Prop :=
  StateX t S (doneB S) σ

/-- Well-formed tree: globally distinct node ids, none of them 0. -/
def WFtree (t : DirTree) : Prop :=
  (subIds t).Nodup ∧ (0 : Int) ∉ subIds t

/-- The aggregator's designated roots only name the tree's root (the scanner
passes exactly the seeded root id). -/
def RootsOK (roots : List Int) (t : DirTree) : Prop :=
  ∀ e ∈ ann 0 t, e.2.id ∈ roots → e.1 = 0

/-! ## Map and membership lemmas -/

theorem mlookup_merase {α : Type} (m : AMap α) (k k' : Int) :
    mlookup (merase m k) k' = if k' = k then none else mlookup m k' := by
  induction m with
  | nil => simp [merase, mlookup]
  | cons e rest ih =>
    rw [merase_cons]
    by_cases he : e.1 = k
    · rw [if_pos he, ih]
      by_cases hk : k' = k
      · simp [hk]
      · have : ¬ (k' = e.1) := by rw [he]; exact hk
        simp [mlookup, hk, this]
    · rw [if_neg he]
      by_cases hk' : k' = e.1
      · have hkk : ¬ (k' = k) := by rw [hk']; exact he
        rw [if_neg hkk]
        simp [mlookup, hk']
      · simp only [mlookup, if_neg hk']
        exact ih

theorem mlookup_minsert {α : Type} (m : AMap α) (k k' : Int) (v : α) :
    mlookup (minsert m k v) k' = if k' = k then some v else mlookup m k' := by
  simp only [minsert, mlookup]
  by_cases hk : k' = k
  · simp [hk]
  · rw [if_neg hk, if_neg hk, mlookup_merase, if_neg hk]

theorem eq_nil_of_mlookup_none {α : Type} {m : AMap α}
    (h : ∀ k, mlookup m k = none) : m = [] := by
  cases m with
  | nil => rfl
  | cons e rest =>
    have := h e.1
    simp [mlookup] at this

theorem memI_iff (i : Int) (S : List Int) : memI i S = true ↔ i ∈ S := by
  induction S with
  | nil => simp [memI]
  | cons j rest ih => simp [memI, ih]

/-! ## Structural lemmas about trees -/

theorem subIds_node (i a b c : Int) (cs : List DirTree) :
    subIds (.node i a b c cs) = i :: subIdsF cs := by
  simp [subIds]

theorem id_mem_subIds (y : DirTree) : y.id ∈ subIds y := by
  cases y with
  | node i a b c cs => simp [subIds, DirTree.id]

theorem mem_annF {p : Int} {ts : List DirTree} {e : Int × DirTree} :
    e ∈ annF p ts ↔ ∃ t ∈ ts, e ∈ ann p t := by
  induction ts with
  | nil => simp [annF]
  | cons t ts ih =>
    simp only [annF, List.mem_append, ih, List.mem_cons]
    constructor
    · rintro (h | ⟨u, hu, he⟩)
      · exact ⟨t, Or.inl rfl, h⟩
      · exact ⟨u, Or.inr hu, he⟩
    · rintro ⟨u, (rfl | hu), he⟩
      · exact Or.inl he
      · exact Or.inr ⟨u, hu, he⟩

theorem self_mem_ann (p : Int) (t : DirTree) : (p, t) ∈ ann p t := by
  cases t with
  | node i a b c cs => simp [ann]

theorem children_mem_ann {c : DirTree} {t : DirTree} (p : Int)
    (hc : c ∈ t.children) : (t.id, c) ∈ ann p t := by
  cases t with
  | node i a b c' cs =>
    simp only [DirTree.children] at hc
    simp only [ann, DirTree.id, List.mem_cons]
    exact Or.inr (mem_annF.mpr ⟨c, hc, self_mem_ann i c⟩)

mutual

theorem ann_map_id (p : Int) (t : DirTree) :
    (ann p t).map (fun e => e.2.id) = subIds t := by
  cases t with
  | node i a b c cs =>
    simp only [ann, subIds, List.map_cons]
    rw [annF_map_id i cs]
    rfl

theorem annF_map_id (p : Int) (ts : List DirTree) :
    (annF p ts).map (fun e => e.2.id) = subIdsF ts := by
  cases ts with
  | nil => simp [annF, subIdsF]
  | cons t ts =>
    simp only [annF, subIdsF, List.map_append]
    rw [ann_map_id p t, annF_map_id p ts]

end

mutual

theorem mem_ann_sub (r : Int) (t : DirTree) :
    ∀ e ∈ ann r t, ∀ f ∈ ann e.1 e.2, f ∈ ann r t := by
  cases t with
  | node i a b c cs =>
    intro e he f hf
    simp only [ann, List.mem_cons] at he ⊢
    rcases he with rfl | he
    · simpa [ann] using hf
    · exact Or.inr (mem_annF_sub i cs e he f hf)

theorem mem_annF_sub (r : Int) (ts : List DirTree) :
    ∀ e ∈ annF r ts, ∀ f ∈ ann e.1 e.2, f ∈ annF r ts := by
  cases ts with
  | nil => intro e he; simp [annF] at he
  | cons t ts =>
    intro e he f hf
    simp only [annF, List.mem_append] at he ⊢
    rcases he with he | he
    · exact Or.inl (mem_ann_sub r t e he f hf)
    · exact Or.inr (mem_annF_sub r ts e he f hf)

end

mutual

theorem mem_ann_parent (r : Int) (t : DirTree) :
    ∀ e ∈ ann r t, (e.1 = r ∧ e.2 = t) ∨
      ∃ f ∈ ann r t, f.2.id = e.1 ∧ e.2 ∈ f.2.children := by
  cases t with
  | node i a b c cs =>
    intro e he
    simp only [ann, List.mem_cons] at he
    rcases he with rfl | he
    · exact Or.inl ⟨rfl, rfl⟩
    · rcases mem_annF_parent i cs e he with ⟨hc, hp⟩ | ⟨f, hf, hid, hch⟩
      · refine Or.inr ⟨(r, .node i a b c cs), ?_, ?_, ?_⟩
        · simp [ann]
        · simpa [DirTree.id] using hp.symm
        · simpa [DirTree.children] using hc
      · exact Or.inr ⟨f, by simp only [ann, List.mem_cons]; exact Or.inr hf,
          hid, hch⟩

theorem mem_annF_parent (r : Int) (ts : List DirTree) :
    ∀ e ∈ annF r ts, (e.2 ∈ ts ∧ e.1 = r) ∨
      ∃ f ∈ annF r ts, f.2.id = e.1 ∧ e.2 ∈ f.2.children := by
  cases ts with
  | nil => intro e he; simp [annF] at he
  | cons t ts =>
    intro e he
    simp only [annF, List.mem_append] at he
    rcases he with he | he
    · rcases mem_ann_parent r t e he with ⟨hp, ht⟩ | ⟨f, hf, hid, hch⟩
      · exact Or.inl ⟨by simp [ht], hp⟩
      · exact Or.inr ⟨f, by simp only [annF, List.mem_append]; exact Or.inl hf,
          hid, hch⟩
    · rcases mem_annF_parent r ts e he with ⟨hc, hp⟩ | ⟨f, hf, hid, hch⟩
      · exact Or.inl ⟨by simp [hc], hp⟩
      · exact Or.inr ⟨f, by simp only [annF, List.mem_append]; exact Or.inr hf,
          hid, hch⟩

end

/-! ## Sum lemmas -/

theorem sumSize_eq (l : List DirTree) :
    sumSize l = (l.map (fun c => (rollupOf c).totalSize)).sum := by
  induction l with
  | nil => simp [sumSize]
  | cons t ts ih => simp [sumSize, ih]

theorem sumBlocks_eq (l : List DirTree) :
    sumBlocks l = (l.map (fun c => (rollupOf c).totalBlocks)).sum := by
  induction l with
  | nil => simp [sumBlocks]
  | cons t ts ih => simp [sumBlocks, ih]

theorem sumFiles_eq (l : List DirTree) :
    sumFiles l = (l.map (fun c => (rollupOf c).totalFiles)).sum := by
  induction l with
  | nil => simp [sumFiles]
  | cons t ts ih => simp [sumFiles, ih]

theorem sumDirs_eq (l : List DirTree) :
    sumDirs l = (l.map (fun c => (rollupOf c).totalDirs + 1)).sum := by
  induction l with
  | nil => simp [sumDirs]
  | cons t ts ih => simp [sumDirs, ih]

/-- If `q'` agrees with `q` except at a single occurrence `x` (present, keys
distinct) where `q` drops and `q'` keeps, the `q'`-filter is a permutation of
`x` consed onto the `q`-filter. -/
theorem filter_update_perm {α β : Type} {cs : List α} {x : α} (key : α → β)
    {q q' : α → Bool}
    (hnd : (cs.map key).Nodup) (hx : x ∈ cs)
    (hqx : q x = false) (hq'x : q' x = true)
    (hagree : ∀ c ∈ cs, key c ≠ key x → q' c = q c) :
    (cs.filter q').Perm (x :: cs.filter q) := by
  induction cs with
  | nil => simp at hx
  | cons c rest ih =>
    simp only [List.map_cons, List.nodup_cons] at hnd
    rcases List.mem_cons.mp hx with rfl | hxr
    · have hrest : ∀ d ∈ rest, q' d = q d := by
        intro d hd
        refine hagree d (List.mem_cons_of_mem _ hd) ?_
        intro hde
        exact hnd.1 (hde ▸ List.mem_map_of_mem key hd)
      have : rest.filter q' = rest.filter q := by
        apply List.filter_congr
        intro d hd
        rw [hrest d hd]
      simp [List.filter_cons, hqx, hq'x, this]
    · have hcx : key c ≠ key x := by
        intro hce
        exact hnd.1 (hce ▸ List.mem_map_of_mem key hxr)
      have hc : q' c = q c := hagree c (List.mem_cons_self c rest) hcx
      have hrec := ih hnd.2 hxr
        (fun d hd hdx => hagree d (List.mem_cons_of_mem _ hd) hdx)
      by_cases hqc : q c = true
      · simp only [List.filter_cons, hc, hqc, if_true]
        exact (hrec.cons c).trans (List.Perm.swap x c _)
      · have : q c = false := Bool.eq_false_iff.mpr hqc
        simp only [List.filter_cons, hc, this]
        simpa using hrec

/-! ## Uniqueness and lookup of nodes -/

theorem ann_unique {t : DirTree} (hnd : (subIds t).Nodup)
    {e f : Int × DirTree} (he : e ∈ ann 0 t) (hf : f ∈ ann 0 t)
    (hid : e.2.id = f.2.id) : e = f := by
  have hmap : ((ann 0 t).map (fun x => x.2.id)).Nodup := by
    rw [ann_map_id]; exact hnd
  exact List.inj_on_of_nodup_map hmap he hf hid

theorem find?_eq_some_of_unique {α : Type} {l : List α} {q : α → Bool} {e : α}
    (he : e ∈ l) (hq : q e = true)
    (huniq : ∀ f ∈ l, q f = true → f = e) : l.find? q = some e := by
  induction l with
  | nil => simp at he
  | cons a rest ih =>
    by_cases ha : q a = true
    · have he2 : a = e := huniq a (List.mem_cons_self a rest) ha
      subst he2
      simp [List.find?_cons, ha]
    · have ha' : q a = false := Bool.eq_false_iff.mpr ha
      have hne : e ≠ a := fun hh => ha (hh ▸ hq)
      have he' : e ∈ rest := (List.mem_cons.mp he).resolve_left hne
      simp only [List.find?_cons, ha']
      exact ih he' (fun f hf hqf => huniq f (List.mem_cons_of_mem a hf) hqf)

theorem findAnn_of_mem {t : DirTree} (hnd : (subIds t).Nodup)
    {e : Int × DirTree} (he : e ∈ ann 0 t) : findAnn t e.2.id = some e := by
  apply find?_eq_some_of_unique he (by simp)
  intro f hf hq
  exact ann_unique hnd hf he (by simpa using hq)

theorem findAnn_mem {t : DirTree} {k : Int} {e : Int × DirTree}
    (h : findAnn t k = some e) : e ∈ ann 0 t ∧ e.2.id = k := by
  refine ⟨List.mem_of_find?_eq_some h, ?_⟩
  have := List.find?_some h
  simpa using this

theorem findAnn_eq_none {t : DirTree} {k : Int} :
    findAnn t k = none ↔ k ∉ subIds t := by
  unfold findAnn
  rw [List.find?_eq_none]
  constructor
  · intro h hk
    rw [← ann_map_id 0 t] at hk
    rcases List.mem_map.mp hk with ⟨e, he, hid⟩
    have := h e he
    simp [hid] at this
  · intro h e he
    simp only [beq_iff_eq]
    intro hid
    apply h
    rw [← ann_map_id 0 t]
    exact hid ▸ List.mem_map_of_mem _ he

/-! ## Congruence: the ghost state depends only on membership in `S` -/

theorem memI_eq_decide (i : Int) (S : List Int) : memI i S = decide (i ∈ S) := by
  induction S with
  | nil => simp [memI]
  | cons j rest ih => simp [memI, ih, List.mem_cons]

theorem all_congr {α : Type} {l : List α} {f g : α → Bool}
    (h : ∀ x ∈ l, f x = g x) : l.all f = l.all g := by
  induction l with
  | nil => rfl
  | cons a rest ih =>
    simp only [List.all_cons, h a (List.mem_cons_self a rest)]
    rw [ih (fun x hx => h x (List.mem_cons_of_mem a hx))]

theorem memI_congr {S S' : List Int} (h : ∀ i : Int, i ∈ S ↔ i ∈ S')
    (i : Int) : memI i S = memI i S' := by
  rw [memI_eq_decide, memI_eq_decide]
  exact decide_eq_decide.mpr (h i)

theorem doneB_congr {S S' : List Int} (h : ∀ i : Int, i ∈ S ↔ i ∈ S')
    (y : DirTree) : doneB S y = doneB S' y :=
  all_congr (fun i _ => memI_congr h i)

theorem arrivedB_congr {S S' : List Int} (h : ∀ i : Int, i ∈ S ↔ i ∈ S')
    (y : DirTree) : arrivedB S y = arrivedB S' y :=
  memI_congr h y.id

theorem kidsX_ext {D D' : DirTree → Bool} {y : DirTree}
    (h : ∀ c ∈ y.children, D c = D' c) : kidsX D y = kidsX D' y :=
  List.filter_congr h

theorem specPartialsX_ext {t : DirTree} {S S' : List Int}
    {D D' : DirTree → Bool} (k : Int)
    (h : ∀ e ∈ ann 0 t, e.2.id = k → arrivedB S e.2 = arrivedB S' e.2 ∧
      D e.2 = D' e.2 ∧ ∀ c ∈ e.2.children, D c = D' c) :
    specPartialsX t S D k = specPartialsX t S' D' k := by
  simp only [specPartialsX]
  cases hf : findAnn t k with
  | none => rfl
  | some e =>
    dsimp only
    obtain ⟨he, hid⟩ := findAnn_mem hf
    obtain ⟨ha, h1, h2⟩ := h e he hid
    rw [pendX, pendX, ha, h1, pRollupX, pRollupX, kidsX_ext h2]

theorem specParentX_ext {t : DirTree} {S S' : List Int}
    {D D' : DirTree → Bool} (k : Int)
    (h : ∀ e ∈ ann 0 t, e.2.id = k → arrivedB S e.2 = arrivedB S' e.2 ∧
      D e.2 = D' e.2 ∧ ∀ c ∈ e.2.children, D c = D' c) :
    specParentX t S D k = specParentX t S' D' k := by
  simp only [specParentX]
  cases hf : findAnn t k with
  | none => rfl
  | some e =>
    dsimp only
    obtain ⟨he, hid⟩ := findAnn_mem hf
    obtain ⟨ha, h1, _⟩ := h e he hid
    rw [pendX, pendX, ha, h1]

theorem specExpectedX_ext {t : DirTree} {S S' : List Int}
    {D D' : DirTree → Bool} (k : Int)
    (h : ∀ e ∈ ann 0 t, e.2.id = k → arrivedB S e.2 = arrivedB S' e.2 ∧
      D e.2 = D' e.2 ∧ ∀ c ∈ e.2.children, D c = D' c) :
    specExpectedX t S D k = specExpectedX t S' D' k := by
  simp only [specExpectedX]
  cases hf : findAnn t k with
  | none => rfl
  | some e =>
    dsimp only
    obtain ⟨he, hid⟩ := findAnn_mem hf
    obtain ⟨ha, h1, _⟩ := h e he hid
    rw [pendX, pendX, ha, h1]

theorem specCompletedX_ext {t : DirTree} {S S' : List Int}
    {D D' : DirTree → Bool} (k : Int)
    (h : ∀ e ∈ ann 0 t, e.2.id = k → arrivedB S e.2 = arrivedB S' e.2 ∧
      D e.2 = D' e.2 ∧ ∀ c ∈ e.2.children, D c = D' c) :
    specCompletedX t S D k = specCompletedX t S' D' k := by
  simp only [specCompletedX]
  cases hf : findAnn t k with
  | none => rfl
  | some e =>
    dsimp only
    obtain ⟨he, hid⟩ := findAnn_mem hf
    obtain ⟨ha, h1, h2⟩ := h e he hid
    rw [pendX, pendX, ha, h1, kcountX, kcountX, kidsX_ext h2]

theorem specOrphansX_ext {t : DirTree} {S S' : List Int}
    {D D' : DirTree → Bool} (k : Int)
    (h : ∀ e ∈ ann 0 t, e.2.id = k → arrivedB S e.2 = arrivedB S' e.2 ∧
      D e.2 = D' e.2 ∧ ∀ c ∈ e.2.children, D c = D' c) :
    specOrphansX t S D k = specOrphansX t S' D' k := by
  simp only [specOrphansX]
  cases hf : findAnn t k with
  | none => rfl
  | some e =>
    dsimp only
    obtain ⟨he, hid⟩ := findAnn_mem hf
    obtain ⟨ha, _, h2⟩ := h e he hid
    rw [ha, kcountX, kcountX, kidsX_ext h2, orphX, orphX, kidsX_ext h2]

theorem emittedSpecX_ext {t : DirTree} {D D' : DirTree → Bool}
    (h : ∀ e ∈ ann 0 t, D e.2 = D' e.2) :
    emittedSpecX t D = emittedSpecX t D' := by
  simp only [emittedSpecX]
  rw [List.filter_congr h]

/-! ## Subtree containment and disjointness -/

theorem subIds_sub {r : Int} {t : DirTree} {e : Int × DirTree}
    (he : e ∈ ann r t) : ∀ k ∈ subIds e.2, k ∈ subIds t := by
  intro k hk
  rw [← ann_map_id r t]
  rw [← ann_map_id e.1 e.2] at hk
  rcases List.mem_map.mp hk with ⟨f, hf, rfl⟩
  exact List.mem_map_of_mem _ (mem_ann_sub r t e he f hf)

theorem node_of_mem_subIds {t : DirTree} {e : Int × DirTree}
    (he : e ∈ ann 0 t) {k : Int} (hk : k ∈ subIds e.2) :
    ∃ f, f ∈ ann 0 t ∧ f.2.id = k ∧ (∀ j ∈ subIds f.2, j ∈ subIds e.2) := by
  rw [← ann_map_id e.1 e.2] at hk
  rcases List.mem_map.mp hk with ⟨f, hf, rfl⟩
  refine ⟨f, mem_ann_sub 0 t e he f hf, rfl, ?_⟩
  intro j hj
  rw [← ann_map_id f.1 f.2] at hj
  rcases List.mem_map.mp hj with ⟨g, hg, rfl⟩
  rw [← ann_map_id e.1 e.2]
  exact List.mem_map_of_mem _ (mem_ann_sub e.1 e.2 f hf g hg)

theorem child_pair_mem {t : DirTree} {e : Int × DirTree} (he : e ∈ ann 0 t)
    {c : DirTree} (hc : c ∈ e.2.children) : (e.2.id, c) ∈ ann 0 t :=
  mem_ann_sub 0 t e he (e.2.id, c) (children_mem_ann e.1 hc)

theorem child_subIds_sub {y c : DirTree} (hc : c ∈ y.children) :
    ∀ k ∈ subIds c, k ∈ subIds y := by
  intro k hk
  have hm : (y.id, c) ∈ ann 0 y := children_mem_ann 0 hc
  exact subIds_sub hm k hk

theorem mem_subIdsF {ts : List DirTree} {c : DirTree} (hc : c ∈ ts) :
    ∀ k ∈ subIds c, k ∈ subIdsF ts := by
  induction ts with
  | nil => simp at hc
  | cons a rest ih =>
    intro k hk
    simp only [subIdsF, List.mem_append]
    rcases List.mem_cons.mp hc with rfl | hcr
    · exact Or.inl hk
    · exact Or.inr (ih hcr k hk)

theorem id_mem_subIdsF {ts : List DirTree} {c : DirTree} (hc : c ∈ ts) :
    c.id ∈ subIdsF ts :=
  mem_subIdsF hc c.id (id_mem_subIds c)

mutual

theorem nodup_sub (r : Int) (t : DirTree) (hnd : (subIds t).Nodup) :
    ∀ e ∈ ann r t, (subIds e.2).Nodup := by
  cases t with
  | node i a b c cs =>
    intro e he
    simp only [ann, List.mem_cons] at he
    rcases he with rfl | he
    · exact hnd
    · have hnd' : (subIdsF cs).Nodup := by
        rw [subIds_node] at hnd
        exact hnd.of_cons
      exact nodup_subF i cs hnd' e he

theorem nodup_subF (r : Int) (ts : List DirTree) (hnd : (subIdsF ts).Nodup) :
    ∀ e ∈ annF r ts, (subIds e.2).Nodup := by
  cases ts with
  | nil => intro e he; simp [annF] at he
  | cons t ts =>
    intro e he
    simp only [subIdsF] at hnd
    rcases List.nodup_append.mp hnd with ⟨hnd1, hnd2, _⟩
    simp only [annF, List.mem_append] at he
    rcases he with he | he
    · exact nodup_sub r t hnd1 e he
    · exact nodup_subF r ts hnd2 e he

end

theorem children_ids_nodup {ts : List DirTree} (hnd : (subIdsF ts).Nodup) :
    (ts.map DirTree.id).Nodup := by
  induction ts with
  | nil => simp
  | cons a rest ih =>
    simp only [subIdsF] at hnd
    rcases List.nodup_append.mp hnd with ⟨_, hnd2, hdisj⟩
    simp only [List.map_cons, List.nodup_cons]
    refine ⟨?_, ih hnd2⟩
    intro hmem
    rcases List.mem_map.mp hmem with ⟨d, hd, hid⟩
    exact hdisj (id_mem_subIds a) (hid ▸ id_mem_subIdsF hd)

theorem sibling_disjoint {ts : List DirTree} (hnd : (subIdsF ts).Nodup) :
    ∀ x ∈ ts, ∀ c ∈ ts, x.id ≠ c.id →
      ∀ k ∈ subIds x, k ∉ subIds c := by
  induction ts with
  | nil => intro x hx; simp at hx
  | cons a rest ih =>
    simp only [subIdsF] at hnd
    rcases List.nodup_append.mp hnd with ⟨_, hnd2, hdisj⟩
    intro x hx c hc hne k hkx hkc
    rcases List.mem_cons.mp hx with rfl | hxr
    · rcases List.mem_cons.mp hc with rfl | hcr
      · exact hne rfl
      · exact hdisj hkx (mem_subIdsF hcr k hkc)
    · rcases List.mem_cons.mp hc with rfl | hcr
      · exact hdisj hkc (mem_subIdsF hxr k hkx)
      · exact ih hnd2 x hxr c hcr hne k hkx hkc

/-! ## Arrival and completion predicates -/

theorem ann_cons (q : Int) (z : DirTree) :
    ann q z = (q, z) :: annF z.id z.children := by
  cases z with
  | node i a b c cs => simp [ann, DirTree.id, DirTree.children]

theorem doneB_iff {S : List Int} {y : DirTree} :
    doneB S y = true ↔ ∀ i ∈ subIds y, i ∈ S := by
  simp [doneB, List.all_eq_true, memI_iff]

theorem arrivedB_iff {S : List Int} {y : DirTree} :
    arrivedB S y = true ↔ y.id ∈ S :=
  memI_iff _ _

theorem doneB_arrived {S : List Int} {y : DirTree} (h : doneB S y = true) :
    arrivedB S y = true :=
  arrivedB_iff.mpr (doneB_iff.mp h y.id (id_mem_subIds y))

theorem all_subIdsF (f : Int → Bool) (cs : List DirTree) :
    (subIdsF cs).all f = cs.all (fun c => (subIds c).all f) := by
  induction cs with
  | nil => simp [subIdsF]
  | cons c rest ih => simp [subIdsF, List.all_append, ih]

theorem doneB_eq_children {S : List Int} {y : DirTree} :
    doneB S y = (arrivedB S y && y.children.all (doneB S)) := by
  cases y with
  | node i a b c cs =>
    simp only [doneB, subIds_node, List.all_cons, arrivedB, DirTree.id,
      DirTree.children]
    rw [all_subIdsF]
    rfl

theorem doneB_cons_of_not_mem {d : Int} {S : List Int} {y : DirTree}
    (hd : d ∉ subIds y) : doneB (d :: S) y = doneB S y := by
  apply all_congr
  intro i hi
  rw [memI_eq_decide, memI_eq_decide]
  have hne : i ≠ d := fun h => hd (h ▸ hi)
  simp [List.mem_cons, hne]

theorem arrivedB_cons_of_ne {d : Int} {S : List Int} {y : DirTree}
    (h : y.id ≠ d) : arrivedB (d :: S) y = arrivedB S y := by
  simp only [arrivedB]
  rw [memI_eq_decide, memI_eq_decide]
  simp [List.mem_cons, h]

theorem doneB_mono {S : List Int} {d : Int} {y : DirTree}
    (h : doneB S y = true) : doneB (d :: S) y = true := by
  rw [doneB_iff] at h ⊢
  intro i hi
  exact List.mem_cons_of_mem d (h i hi)

/-! ## Parent and ancestor structure -/

theorem parent_pair {t : DirTree} {e : Int × DirTree}
    (he : e ∈ ann 0 t) (hp : e.1 ≠ 0) :
    ∃ f ∈ ann 0 t, f.2.id = e.1 ∧ e.2 ∈ f.2.children := by
  rcases mem_ann_parent 0 t e he with ⟨h1, _⟩ | h
  · exact absurd h1 hp
  · exact h

theorem parent_not_in_sub {t : DirTree} (hnd : (subIds t).Nodup)
    {e : Int × DirTree} (he : e ∈ ann 0 t) (hp : e.1 ≠ 0) :
    e.1 ∉ subIds e.2 := by
  rcases parent_pair he hp with ⟨f, hf, hid, hch⟩
  intro hmem
  have hndf : (subIds f.2).Nodup := nodup_sub 0 t hnd f hf
  rcases f with ⟨q, z⟩
  cases z with
  | node i a b c cs =>
    simp only [DirTree.id] at hid
    simp only [DirTree.children] at hch
    rw [subIds_node] at hndf
    have h1 : e.1 ∈ subIdsF cs := by
      have := mem_subIdsF hch e.1 hmem
      exact this
    rw [← hid] at h1
    exact (List.nodup_cons.mp hndf).1 (hid ▸ h1)

theorem parent_ne_self {t : DirTree} (hnd : (subIds t).Nodup)
    {e : Int × DirTree} (he : e ∈ ann 0 t) (hp : e.1 ≠ 0) :
    e.1 ≠ e.2.id :=
  fun h => parent_not_in_sub hnd he hp (h ▸ id_mem_subIds e.2)

/-- A pair whose node id lies in `e.2`'s subtree occurs inside `e.2`'s own
annotation (global ids distinct). -/
theorem pair_in_sub {t : DirTree} (hnd : (subIds t).Nodup)
    {e f : Int × DirTree} (he : e ∈ ann 0 t) (hf : f ∈ ann 0 t)
    (hid : f.2.id ∈ subIds e.2) : f ∈ ann e.1 e.2 := by
  rw [← ann_map_id e.1 e.2] at hid
  rcases List.mem_map.mp hid with ⟨g, hg, hgid⟩
  have : g = f := ann_unique hnd (mem_ann_sub 0 t e he g hg) hf hgid
  exact this ▸ hg

theorem sub_or_strict {t : DirTree} (hnd : (subIds t).Nodup)
    {e f : Int × DirTree} (he : e ∈ ann 0 t) (hf : f ∈ ann 0 t)
    (hid : f.2.id ∈ subIds e.2) :
    f = e ∨ f ∈ annF e.2.id e.2.children := by
  have hin := pair_in_sub hnd he hf hid
  rw [ann_cons] at hin
  rcases List.mem_cons.mp hin with h | h
  · left
    rcases e with ⟨p, y⟩
    exact h
  · exact Or.inr h

theorem strict_no_rev {t : DirTree} (hnd : (subIds t).Nodup)
    {e f : Int × DirTree} (he : e ∈ ann 0 t)
    (hf : f ∈ annF e.2.id e.2.children) : e.2.id ∉ subIds f.2 := by
  rcases mem_annF.mp hf with ⟨c, hc, hfc⟩
  intro hmem
  have h1 : e.2.id ∈ subIds c := subIds_sub hfc e.2.id hmem
  have h2 : e.2.id ∈ subIdsF e.2.children := mem_subIdsF hc e.2.id h1
  have hnde : (subIds e.2).Nodup := nodup_sub 0 t hnd e he
  cases hy : e.2 with
  | node i a b c' cs =>
    rw [hy] at h2 hnde
    simp only [DirTree.id, DirTree.children] at h2
    rw [subIds_node] at hnde
    exact (List.nodup_cons.mp hnde).1 h2

theorem contain_antisym {t : DirTree} (hnd : (subIds t).Nodup)
    {e f : Int × DirTree} (he : e ∈ ann 0 t) (hf : f ∈ ann 0 t)
    (h1 : f.2.id ∈ subIds e.2) (h2 : e.2.id ∈ subIds f.2) : f = e := by
  rcases sub_or_strict hnd he hf h1 with h | h
  · exact h
  · exact absurd h2 (strict_no_rev hnd he h)

/-- Ancestor transfer: for `z` other than `e.2` itself, containing `e.2` is
the same as containing `e.2`'s parent. -/
theorem anc_transfer {t : DirTree} (hnd : (subIds t).Nodup)
    {e : Int × DirTree} (he : e ∈ ann 0 t) (hp : e.1 ≠ 0)
    {z : Int × DirTree} (hz : z ∈ ann 0 t) (hne : z.2.id ≠ e.2.id) :
    e.2.id ∈ subIds z.2 ↔ e.1 ∈ subIds z.2 := by
  constructor
  · intro hmem
    rcases sub_or_strict hnd hz he hmem with h | h
    · exact absurd (congrArg (fun w => w.2.id) h) hne.symm
    · rcases mem_annF.mp h with ⟨c, hc, hec⟩
      rcases mem_ann_parent z.2.id c e hec with ⟨h1, _⟩ | ⟨g, hg, hgid, _⟩
      · exact h1 ▸ id_mem_subIds z.2
      · have : g.2.id ∈ subIds c := by
          rw [← ann_map_id z.2.id c]
          exact List.mem_map_of_mem _ hg
        exact hgid ▸ child_subIds_sub hc g.2.id this
  · intro hmem
    rcases parent_pair he hp with ⟨f, hf, hid, hch⟩
    have hfin : f ∈ ann z.1 z.2 := pair_in_sub hnd hz hf (hid.symm ▸ hmem)
    have hsub : ∀ k ∈ subIds f.2, k ∈ subIds z.2 := subIds_sub hfin
    exact hsub e.2.id (child_subIds_sub hch e.2.id (id_mem_subIds e.2))

theorem pair_zero_is_root {t : DirTree} (h0 : (0 : Int) ∉ subIds t)
    {e : Int × DirTree} (he : e ∈ ann 0 t) (hp : e.1 = 0) : e = (0, t) := by
  rcases mem_ann_parent 0 t e he with ⟨h1, h2⟩ | ⟨f, hf, hid, _⟩
  · rcases e with ⟨p, y⟩
    simp only at h1 h2
    rw [h1, h2]
  · exfalso
    apply h0
    rw [← hp, ← hid, ← ann_map_id 0 t]
    exact List.mem_map_of_mem _ hf

theorem root_contained_only_self {t : DirTree} (hnd : (subIds t).Nodup)
    {z : Int × DirTree} (hz : z ∈ ann 0 t) (hmem : t.id ∈ subIds z.2) :
    z = (0, t) := by
  have hzid : z.2.id ∈ subIds t := by
    rw [← ann_map_id 0 t]
    exact List.mem_map_of_mem _ hz
  have := contain_antisym hnd hz (self_mem_ann 0 t) (by simpa using hmem)
    (by simpa using hzid)
  simpa using this.symm

/-! ## Evaluating the ghost state -/

theorem specPartialsX_at {t : DirTree} (hnd : (subIds t).Nodup)
    {e : Int × DirTree} (he : e ∈ ann 0 t) (S : List Int)
    (D : DirTree → Bool) :
    specPartialsX t S D e.2.id =
      if pendX S D e.2 then some (pRollupX D e.2) else none := by
  simp [specPartialsX, findAnn_of_mem hnd he]

theorem specParentX_at {t : DirTree} (hnd : (subIds t).Nodup)
    {e : Int × DirTree} (he : e ∈ ann 0 t) (S : List Int)
    (D : DirTree → Bool) :
    specParentX t S D e.2.id = if pendX S D e.2 then e.1 else 0 := by
  simp [specParentX, findAnn_of_mem hnd he]

theorem specExpectedX_at {t : DirTree} (hnd : (subIds t).Nodup)
    {e : Int × DirTree} (he : e ∈ ann 0 t) (S : List Int)
    (D : DirTree → Bool) :
    specExpectedX t S D e.2.id =
      if pendX S D e.2 then (e.2.children.length : Int) else 0 := by
  simp [specExpectedX, findAnn_of_mem hnd he]

theorem specCompletedX_at {t : DirTree} (hnd : (subIds t).Nodup)
    {e : Int × DirTree} (he : e ∈ ann 0 t) (S : List Int)
    (D : DirTree → Bool) :
    specCompletedX t S D e.2.id =
      if pendX S D e.2 then kcountX D e.2 else 0 := by
  simp [specCompletedX, findAnn_of_mem hnd he]

theorem specOrphansX_at {t : DirTree} (hnd : (subIds t).Nodup)
    {e : Int × DirTree} (he : e ∈ ann 0 t) (S : List Int)
    (D : DirTree → Bool) :
    specOrphansX t S D e.2.id =
      if arrivedB S e.2 = false ∧ 0 < kcountX D e.2 then
        some ⟨orphX D e.2, kcountX D e.2⟩
      else none := by
  simp [specOrphansX, findAnn_of_mem hnd he]

theorem specPartialsX_notin {t : DirTree} {k : Int} (hk : k ∉ subIds t)
    (S : List Int) (D : DirTree → Bool) : specPartialsX t S D k = none := by
  simp [specPartialsX, findAnn_eq_none.mpr hk]

theorem specParentX_notin {t : DirTree} {k : Int} (hk : k ∉ subIds t)
    (S : List Int) (D : DirTree → Bool) : specParentX t S D k = 0 := by
  simp [specParentX, findAnn_eq_none.mpr hk]

theorem specExpectedX_notin {t : DirTree} {k : Int} (hk : k ∉ subIds t)
    (S : List Int) (D : DirTree → Bool) : specExpectedX t S D k = 0 := by
  simp [specExpectedX, findAnn_eq_none.mpr hk]

theorem specCompletedX_notin {t : DirTree} {k : Int} (hk : k ∉ subIds t)
    (S : List Int) (D : DirTree → Bool) : specCompletedX t S D k = 0 := by
  simp [specCompletedX, findAnn_eq_none.mpr hk]

theorem specOrphansX_notin {t : DirTree} {k : Int} (hk : k ∉ subIds t)
    (S : List Int) (D : DirTree → Bool) : specOrphansX t S D k = none := by
  simp [specOrphansX, findAnn_eq_none.mpr hk]

/-! ## Sum and fold identities -/

theorem sumSize_perm {l l' : List DirTree} (h : l.Perm l') :
    sumSize l = sumSize l' := by
  rw [sumSize_eq, sumSize_eq]
  exact (h.map _).sum_eq

theorem sumBlocks_perm {l l' : List DirTree} (h : l.Perm l') :
    sumBlocks l = sumBlocks l' := by
  rw [sumBlocks_eq, sumBlocks_eq]
  exact (h.map _).sum_eq

theorem sumFiles_perm {l l' : List DirTree} (h : l.Perm l') :
    sumFiles l = sumFiles l' := by
  rw [sumFiles_eq, sumFiles_eq]
  exact (h.map _).sum_eq

theorem sumDirs_perm {l l' : List DirTree} (h : l.Perm l') :
    sumDirs l = sumDirs l' := by
  rw [sumDirs_eq, sumDirs_eq]
  exact (h.map _).sum_eq

theorem kcountX_nonneg (D : DirTree → Bool) (y : DirTree) : 0 ≤ kcountX D y :=
  Int.ofNat_nonneg _

theorem kcountX_le (D : DirTree → Bool) (y : DirTree) :
    kcountX D y ≤ (y.children.length : Int) := by
  simp only [kcountX, kidsX]
  exact_mod_cast List.length_filter_le _ _

theorem kidsX_nil_of_nonpos {D : DirTree → Bool} {y : DirTree}
    (h : kcountX D y ≤ 0) : kidsX D y = [] := by
  simp only [kcountX] at h
  have : (kidsX D y).length = 0 := by omega
  exact List.eq_nil_of_length_eq_zero this

theorem kidsX_eq_children {D : DirTree → Bool} {y : DirTree}
    (hall : ∀ c ∈ y.children, D c = true) : kidsX D y = y.children :=
  List.filter_eq_self.mpr hall

theorem kidsX_all_of_len {D : DirTree → Bool} {y : DirTree}
    (h : (y.children.length : Int) ≤ kcountX D y) :
    ∀ c ∈ y.children, D c = true := by
  have hlen : (kidsX D y).length = y.children.length := by
    have h1 := List.length_filter_le D y.children
    simp only [kcountX, kidsX] at *
    omega
  have := (List.filter_sublist (l := y.children) (p := D)).eq_of_length hlen
  exact List.filter_eq_self.mp this

theorem pRollupX_all {D : DirTree → Bool} {y : DirTree}
    (hall : ∀ c ∈ y.children, D c = true) : pRollupX D y = rollupOf y := by
  cases y with
  | node i a b f cs =>
    simp only [pRollupX, kidsX_eq_children hall, DirTree.children, DirTree.id,
      DirTree.fsize, DirTree.fblocks, DirTree.fcount]
    simp [rollupOf]

theorem kidsX_update_perm {y x : DirTree} {D D' : DirTree → Bool}
    (hnd : (y.children.map DirTree.id).Nodup) (hx : x ∈ y.children)
    (hD : D x = false) (hD' : D' x = true)
    (hag : ∀ c ∈ y.children, c.id ≠ x.id → D' c = D c) :
    (kidsX D' y).Perm (x :: kidsX D y) :=
  filter_update_perm DirTree.id hnd hx hD hD' hag

theorem pRollupX_update {y x : DirTree} {D D' : DirTree → Bool}
    (hnd : (y.children.map DirTree.id).Nodup) (hx : x ∈ y.children)
    (hD : D x = false) (hD' : D' x = true)
    (hag : ∀ c ∈ y.children, c.id ≠ x.id → D' c = D c) :
    pRollupX D' y = addChildRollup (pRollupX D y) (rollupOf x) := by
  have hperm := kidsX_update_perm hnd hx hD hD' hag
  simp only [pRollupX, addChildRollup, sumSize_perm hperm,
    sumBlocks_perm hperm, sumFiles_perm hperm, sumDirs_perm hperm,
    sumSize, sumBlocks, sumFiles, sumDirs, Rollup.mk.injEq]
  exact ⟨trivial, by ring, by ring, by ring, by ring⟩

theorem orphX_update {y x : DirTree} {D D' : DirTree → Bool}
    (hnd : (y.children.map DirTree.id).Nodup) (hx : x ∈ y.children)
    (hD : D x = false) (hD' : D' x = true)
    (hag : ∀ c ∈ y.children, c.id ≠ x.id → D' c = D c) :
    orphX D' y =
      { dirID := 0
        totalSize := (orphX D y).totalSize + (rollupOf x).totalSize
        totalBlocks := (orphX D y).totalBlocks + (rollupOf x).totalBlocks
        totalFiles := (orphX D y).totalFiles + (rollupOf x).totalFiles
        totalDirs := (orphX D y).totalDirs + (rollupOf x).totalDirs + 1 } := by
  have hperm := kidsX_update_perm hnd hx hD hD' hag
  simp only [orphX, sumSize_perm hperm, sumBlocks_perm hperm,
    sumFiles_perm hperm, sumDirs_perm hperm, sumSize, sumBlocks, sumFiles,
    sumDirs, Rollup.mk.injEq]
  exact ⟨trivial, by ring, by ring, by ring, by ring⟩

theorem kcountX_update {y x : DirTree} {D D' : DirTree → Bool}
    (hnd : (y.children.map DirTree.id).Nodup) (hx : x ∈ y.children)
    (hD : D x = false) (hD' : D' x = true)
    (hag : ∀ c ∈ y.children, c.id ≠ x.id → D' c = D c) :
    kcountX D' y = kcountX D y + 1 := by
  have := (kidsX_update_perm hnd hx hD hD' hag).length_eq
  simp only [kcountX, List.length_cons] at *
  omega

theorem filter_eq_singleton {α β : Type} {l : List α} {x : α} (key : α → β)
    {q : α → Bool}
    (hnd : (l.map key).Nodup) (hx : x ∈ l) (hqx : q x = true)
    (huniq : ∀ f ∈ l, q f = true → f = x) : l.filter q = [x] := by
  induction l with
  | nil => simp at hx
  | cons a rest ih =>
    simp only [List.map_cons, List.nodup_cons] at hnd
    rcases List.mem_cons.mp hx with rfl | hxr
    · simp only [List.filter_cons, hqx, if_true]
      have hrest : rest.filter q = [] := by
        rw [List.filter_eq_nil_iff]
        intro b hb hqb
        have hba : b = x := huniq b (List.mem_cons_of_mem _ hb) hqb
        exact absurd (hba ▸ List.mem_map_of_mem key hb) hnd.1
      rw [hrest]
    · have hax : ¬ (key a = key x) :=
        fun h => hnd.1 (h ▸ List.mem_map_of_mem key hxr)
      have hqa : q a = false := by
        rcases Bool.eq_false_or_eq_true (q a) with h | h
        · have := huniq a (List.mem_cons_self a rest) h
          exact absurd (congrArg key this) hax
        · exact h
      simp only [List.filter_cons, hqa, Bool.false_eq_true, if_false]
      exact ih hnd.2 hxr
        (fun f hf hqf => huniq f (List.mem_cons_of_mem a hf) hqf)

theorem filter_mono_perm {α : Type} {l : List α} {q q' : α → Bool}
    (h : ∀ a ∈ l, q a = true → q' a = true) :
    (l.filter q').Perm
      (l.filter q ++ l.filter (fun a => q' a && !q a)) := by
  induction l with
  | nil => simp
  | cons a rest ih =>
    have ih' := ih (fun b hb => h b (List.mem_cons_of_mem a hb))
    by_cases hqa : q a = true
    · have hq'a : q' a = true := h a (List.mem_cons_self a rest) hqa
      simp only [List.filter_cons, hqa, hq'a, Bool.not_true, Bool.and_false,
        if_true, Bool.false_eq_true, if_false]
      exact ih'.cons a
    · have hqa' : q a = false := Bool.eq_false_iff.mpr hqa
      by_cases hq'a : q' a = true
      · simp only [List.filter_cons, hqa', hq'a, Bool.not_false, Bool.and_true,
          if_true, Bool.false_eq_true, if_false]
        exact (ih'.cons a).trans List.perm_middle.symm
      · have hq'a' : q' a = false := Bool.eq_false_iff.mpr hq'a
        simp only [List.filter_cons, hqa', hq'a', Bool.false_and,
          Bool.false_eq_true, if_false]
        exact ih'

/-! ## Basic facts about the chain predicate -/

theorem doneD_self (x : DirTree) (S : List Int) : doneD x S x = false := by
  simp [doneD, (memI_iff _ _).mpr (id_mem_subIds x)]

theorem doneD_done {x z : DirTree} {S : List Int} (h : doneD x S z = true) :
    doneB S z = true := by
  simp only [doneD, Bool.and_eq_true] at h
  exact h.1

theorem doneD_of_not_mem {x z : DirTree} {S : List Int}
    (hm : x.id ∉ subIds z) : doneD x S z = doneB S z := by
  have : memI x.id (subIds z) = false := by
    rw [memI_eq_decide]
    simpa using hm
  simp [doneD, this]

theorem id_not_in_child_sub {t : DirTree} (hnd : (subIds t).Nodup)
    {e : Int × DirTree} (he : e ∈ ann 0 t) {c : DirTree}
    (hc : c ∈ e.2.children) : e.2.id ∉ subIds c := by
  have hnde : (subIds e.2).Nodup := nodup_sub 0 t hnd e he
  cases hy : e.2 with
  | node i a b f cs =>
    rw [hy] at hnde hc
    simp only [DirTree.children] at hc
    rw [subIds_node] at hnde
    simp only [DirTree.id]
    intro hmem
    exact (List.nodup_cons.mp hnde).1 (mem_subIdsF hc i hmem)

theorem children_done {S : List Int} {y : DirTree} (h : doneB S y = true) :
    ∀ c ∈ y.children, doneB S c = true := by
  rw [doneB_eq_children] at h
  simp only [Bool.and_eq_true, List.all_eq_true] at h
  exact fun c hc => h.2 c hc

theorem sub_of_mem_sub {t : DirTree} (hnd : (subIds t).Nodup)
    {z e : Int × DirTree} (hz : z ∈ ann 0 t) (he : e ∈ ann 0 t)
    (h : e.2.id ∈ subIds z.2) : ∀ j ∈ subIds e.2, j ∈ subIds z.2 := by
  rcases node_of_mem_subIds hz h with ⟨g, hg, hgid, hsub⟩
  have : g = e := ann_unique hnd hg he hgid
  exact this ▸ hsub

theorem children_map_id_nodup {t : DirTree} (hnd : (subIds t).Nodup)
    {e : Int × DirTree} (he : e ∈ ann 0 t) :
    (e.2.children.map DirTree.id).Nodup := by
  have hnde : (subIds e.2).Nodup := nodup_sub 0 t hnd e he
  cases hy : e.2 with
  | node i a b f cs =>
    rw [hy] at hnde
    rw [subIds_node] at hnde
    simp only [DirTree.children]
    exact children_ids_nodup (List.nodup_cons.mp hnde).2

/-! ## Transporting the ghost state across done-predicate changes -/

theorem stateX_congr {t : DirTree} {S : List Int} {σ : AggState}
    {D D' : DirTree → Bool} (hD : ∀ f ∈ ann 0 t, D f.2 = D' f.2)
    (h : StateX t S D σ) : StateX t S D' σ := by
  obtain ⟨h1, h2, h3, h4, h5⟩ := h
  have hext : ∀ k, ∀ e ∈ ann 0 t, e.2.id = k →
      arrivedB S e.2 = arrivedB S e.2 ∧ D e.2 = D' e.2 ∧
      ∀ c ∈ e.2.children, D c = D' c := by
    intro k e he _
    refine ⟨rfl, hD e he, ?_⟩
    intro c hc
    exact hD (e.2.id, c) (child_pair_mem he hc)
  refine ⟨?_, ?_, ?_, ?_, ?_⟩
  · intro k
    rw [h1 k, specPartialsX_ext k (hext k)]
  · intro k
    rw [h2 k, specParentX_ext k (hext k)]
  · intro k
    rw [h3 k, specExpectedX_ext k (hext k)]
  · intro k
    rw [h4 k, specCompletedX_ext k (hext k)]
  · intro k
    rw [h5 k, specOrphansX_ext k (hext k)]

/-- When `e.2`'s subtree is not fully arrived, masking its ancestors changes
nothing: every node containing it is not done anyway. -/
theorem doneD_eq_doneB_of_not_done {t : DirTree} {S' : List Int}
    (hnd : (subIds t).Nodup) {e : Int × DirTree} (he : e ∈ ann 0 t)
    (hnotdone : doneB S' e.2 = false) :
    ∀ f ∈ ann 0 t, doneD e.2 S' f.2 = doneB S' f.2 := by
  intro f hf
  by_cases hm : e.2.id ∈ subIds f.2
  · have hsub := sub_of_mem_sub hnd hf he hm
    have : doneB S' f.2 = false := by
      rcases Bool.eq_false_or_eq_true (doneB S' f.2) with h | h
      swap
      · exact h
      · exfalso
        have := doneB_iff.mp h
        have hed : doneB S' e.2 = true :=
          doneB_iff.mpr (fun i hi => this i (hsub i hi))
        rw [hed] at hnotdone
        exact absurd hnotdone (by simp)
    simp [doneD, this]
  · exact doneD_of_not_mem hm

/-- When `e.2`'s parent has not arrived, no other node is done and contains
`e.2`. -/
theorem doneD_eq_doneB_of_parent_out {t : DirTree} {S' : List Int}
    (hnd : (subIds t).Nodup) {e : Int × DirTree} (he : e ∈ ann 0 t)
    (hp : e.1 ≠ 0) (hout : e.1 ∉ S') :
    ∀ f ∈ ann 0 t, f.2.id ≠ e.2.id → doneD e.2 S' f.2 = doneB S' f.2 := by
  intro f hf hne
  by_cases hm : e.2.id ∈ subIds f.2
  · have hm' : e.1 ∈ subIds f.2 := (anc_transfer hnd he hp hf hne).mp hm
    have : doneB S' f.2 = false := by
      rcases Bool.eq_false_or_eq_true (doneB S' f.2) with h | h
      · exact absurd (doneB_iff.mp h e.1 hm') hout
      · exact h
    simp [doneD, this]
  · exact doneD_of_not_mem hm

/-- Stop-case emission set: only `e` itself is done and contains `e.2`. -/
theorem newly_single {t : DirTree} {S' : List Int} (hnd : (subIds t).Nodup)
    {e : Int × DirTree} (he : e ∈ ann 0 t) (hdone : doneB S' e.2 = true)
    (honly : ∀ f ∈ ann 0 t, doneB S' f.2 = true → e.2.id ∈ subIds f.2 →
      f = e) :
    (ann 0 t).filter
      (fun f => doneB S' f.2 && memI e.2.id (subIds f.2)) = [e] := by
  apply filter_eq_singleton (fun f => f.2.id)
  · rw [ann_map_id]; exact hnd
  · exact he
  · simp [hdone, (memI_iff _ _).mpr (id_mem_subIds e.2)]
  · intro f hf hq
    simp only [Bool.and_eq_true] at hq
    exact honly f hf hq.1 ((memI_iff _ _).mp hq.2)

/-- Cascade emission shift: the nodes containing `e.2` are `e` itself plus
the nodes containing its parent. -/
theorem newly_shift {t : DirTree} {S' : List Int} (hnd : (subIds t).Nodup)
    {e : Int × DirTree} (he : e ∈ ann 0 t) (hp : e.1 ≠ 0)
    (hdone : doneB S' e.2 = true) :
    ((ann 0 t).filter
        (fun f => doneB S' f.2 && memI e.2.id (subIds f.2))).Perm
      (e :: (ann 0 t).filter
        (fun f => doneB S' f.2 && memI e.1 (subIds f.2))) := by
  apply filter_update_perm (fun f => f.2.id)
  · rw [ann_map_id]; exact hnd
  · exact he
  · have : e.1 ∉ subIds e.2 := parent_not_in_sub hnd he hp
    have hm : memI e.1 (subIds e.2) = false := by
      rw [memI_eq_decide]; simpa using this
    simp [hm]
  · simp [hdone, (memI_iff _ _).mpr (id_mem_subIds e.2)]
  · intro f hf hne
    have := anc_transfer hnd he hp hf hne
    have hmm : memI e.2.id (subIds f.2) = memI e.1 (subIds f.2) := by
      rw [memI_eq_decide, memI_eq_decide]
      exact decide_eq_decide.mpr this
    rw [hmm]

theorem sibling_not_contains {t : DirTree} (hnd : (subIds t).Nodup)
    {fp : Int × DirTree} (hfp : fp ∈ ann 0 t) {x c : DirTree}
    (hx : x ∈ fp.2.children) (hc : c ∈ fp.2.children) (hne : c.id ≠ x.id) :
    x.id ∉ subIds c := by
  have hndfp : (subIds fp.2).Nodup := nodup_sub 0 t hnd fp hfp
  cases hy : fp.2 with
  | node i a b f cs =>
    rw [hy] at hndfp hx hc
    simp only [DirTree.children] at hx hc
    rw [subIds_node] at hndfp
    have hnds : (subIdsF cs).Nodup := (List.nodup_cons.mp hndfp).2
    intro hmm
    exact sibling_disjoint hnds x hx c hc (fun h => hne h.symm) x.id
      (id_mem_subIds x) hmm

theorem doneD_agree_on_siblings {t : DirTree} {S' : List Int}
    (hnd : (subIds t).Nodup) {fp : Int × DirTree} (hfp : fp ∈ ann 0 t)
    {e : Int × DirTree} (hee : e.2 ∈ fp.2.children) :
    ∀ c ∈ fp.2.children, c.id ≠ e.2.id → doneD e.2 S' c = doneB S' c :=
  fun c hc hne => doneD_of_not_mem (sibling_not_contains hnd hfp hee hc hne)

theorem doneD_parent_transfer {t : DirTree} {S' : List Int}
    (hnd : (subIds t).Nodup) {e : Int × DirTree} (he : e ∈ ann 0 t)
    (hp : e.1 ≠ 0) {fp : Int × DirTree} (hfpid : fp.2.id = e.1) :
    ∀ f ∈ ann 0 t, f.2.id ≠ e.2.id →
      doneD e.2 S' f.2 = doneD fp.2 S' f.2 := by
  intro f hf hne
  have hiff := anc_transfer hnd he hp hf hne
  simp only [doneD, hfpid]
  have hm : memI e.2.id (subIds f.2) = memI e.1 (subIds f.2) := by
    rw [memI_eq_decide, memI_eq_decide]
    exact decide_eq_decide.mpr hiff
  rw [hm]

theorem doneD_parent_at_self {t : DirTree} {S' : List Int}
    (hnd : (subIds t).Nodup) {e : Int × DirTree} (he : e ∈ ann 0 t)
    (hp : e.1 ≠ 0) {fp : Int × DirTree} (hfpid : fp.2.id = e.1)
    (hdone : doneB S' e.2 = true) : doneD fp.2 S' e.2 = true := by
  simp only [doneD, hfpid, hdone, Bool.true_and]
  have hni : e.1 ∉ subIds e.2 := parent_not_in_sub hnd he hp
  rw [memI_eq_decide]
  simp [hni]

theorem child_pair_unique {t : DirTree} (hnd : (subIds t).Nodup)
    {e f : Int × DirTree} (he : e ∈ ann 0 t) (hf : f ∈ ann 0 t)
    {c : DirTree} (hc : c ∈ f.2.children) (hcid : c.id = e.2.id) :
    f.2.id = e.1 ∧ c = e.2 := by
  have hpair := child_pair_mem hf hc
  have heq := ann_unique hnd hpair he hcid
  exact ⟨congrArg Prod.fst heq, congrArg Prod.snd heq⟩

theorem orphX_nil {D : DirTree → Bool} {y : DirTree}
    (h : kidsX D y = []) : orphX D y = ⟨0, 0, 0, 0, 0⟩ := by
  simp [orphX, h, sumSize, sumBlocks, sumFiles, sumDirs]

/-- `markComplete` on a completed node restores the quiescent invariant for
`S'` and emits exactly the rollups of the done nodes whose subtree contains
that node (the maximal completed chain of ancestors). -/
theorem markComplete_spec {t : DirTree} {S' : List Int}
    (hnd : (subIds t).Nodup) (h0 : (0 : Int) ∉ subIds t)
    (σ : AggState) (hroots : RootsOK σ.roots t)
    (e : Int × DirTree) (he : e ∈ ann 0 t)
    (hdone : doneB S' e.2 = true)
    (hmid : StateX t S' (doneD e.2 S') σ) :
    StateX t S' (doneB S') (markComplete σ e.2.id).1 ∧
    (markComplete σ e.2.id).1.roots = σ.roots ∧
    (markComplete σ e.2.id).2.Perm
      (((ann 0 t).filter
          (fun f => doneB S' f.2 && memI e.2.id (subIds f.2))).map
        (fun f => rollupOf f.2)) := by
  obtain ⟨hmP, hmPar, hmE, hmC, hmO⟩ := hmid
  have harr : arrivedB S' e.2 = true := doneB_arrived hdone
  have hDe : doneD e.2 S' e.2 = false := doneD_self e.2 S'
  have hkdone : ∀ c ∈ e.2.children, doneB S' c = true := children_done hdone
  have hkD : ∀ c ∈ e.2.children, doneD e.2 S' c = true := by
    intro c hc
    rw [doneD_of_not_mem (id_not_in_child_sub hnd he hc)]
    exact hkdone c hc
  have hpend : pendX S' (doneD e.2 S') e.2 = true := by
    simp [pendX, harr, hDe]
  have hpendDone : pendX S' (doneB S') e.2 = false := by
    simp [pendX, harr, hdone]
  have hlook : mlookup σ.partials e.2.id = some (rollupOf e.2) := by
    rw [hmP e.2.id, specPartialsX_at hnd he]
    simp [hpend, pRollupX_all hkD]
  have hpar : (mlookup σ.parents e.2.id).getD 0 = e.1 := by
    rw [hmPar e.2.id, specParentX_at hnd he]
    simp [hpend]
  set res := markComplete σ e.2.id with hres
  rw [markComplete.eq_def] at hres
  split at hres
  next heq =>
    rw [hlook] at heq
    exact absurd heq (by simp)
  next r heq =>
    rw [hlook] at heq
    injection heq with heqr
    subst heqr
    simp only [hpar] at hres
    split at hres
    next hcond =>
      -- Stop: `e` is a designated root or its parent id is 0; then `e` is
      -- the tree root and every node is done.
      have hp0 : e.1 = 0 := by
        simp only [Bool.or_eq_true, beq_iff_eq] at hcond
        rcases hcond with h | h
        · exact hroots e he ((memI_iff _ _).mp h)
        · exact h
      have het : e = (0, t) := pair_zero_is_root h0 he hp0
      have ht2 : e.2 = t := congrArg Prod.snd het
      have halldone : ∀ f ∈ ann 0 t, doneB S' f.2 = true := by
        intro f hf
        apply doneB_iff.mpr
        intro i hi
        have hdt : doneB S' t = true := ht2 ▸ hdone
        exact doneB_iff.mp hdt i (subIds_sub hf i hi)
      have hDtrue : ∀ f ∈ ann 0 t, f.2.id ≠ e.2.id →
          doneD e.2 S' f.2 = true := by
        intro f hf hne
        have hnm : e.2.id ∉ subIds f.2 := by
          intro hm
          have heid : t.id ∈ subIds f.2 := by rw [← ht2]; exact hm
          have hft := root_contained_only_self hnd hf heid
          apply hne
          rw [hft, ← het]
        rw [doneD_of_not_mem hnm]
        exact halldone f hf
      rw [hres]
      refine ⟨⟨?_, ?_, ?_, ?_, ?_⟩, rfl, ?_⟩
      · intro k
        dsimp only
        rw [mlookup_merase]
        by_cases hk : k = e.2.id
        · rw [if_pos hk, hk, specPartialsX_at hnd he]
          simp [hpendDone]
        · rw [if_neg hk, hmP k]
          by_cases hks : k ∈ subIds t
          · rw [← ann_map_id 0 t] at hks
            rcases List.mem_map.mp hks with ⟨f, hf, hfid⟩
            have hne : f.2.id ≠ e.2.id := fun h => hk (hfid ▸ h)
            rw [← hfid, specPartialsX_at hnd hf, specPartialsX_at hnd hf]
            simp [pendX, hDtrue f hf hne, halldone f hf]
          · rw [specPartialsX_notin hks, specPartialsX_notin hks]
      · intro k
        dsimp only
        rw [mlookup_merase]
        by_cases hk : k = e.2.id
        · rw [if_pos hk, hk, specParentX_at hnd he]
          simp [hpendDone]
        · rw [if_neg hk, hmPar k]
          by_cases hks : k ∈ subIds t
          · rw [← ann_map_id 0 t] at hks
            rcases List.mem_map.mp hks with ⟨f, hf, hfid⟩
            have hne : f.2.id ≠ e.2.id := fun h => hk (hfid ▸ h)
            rw [← hfid, specParentX_at hnd hf, specParentX_at hnd hf]
            simp [pendX, hDtrue f hf hne, halldone f hf]
          · rw [specParentX_notin hks, specParentX_notin hks]
      · intro k
        dsimp only
        rw [mlookup_merase]
        by_cases hk : k = e.2.id
        · rw [if_pos hk, hk, specExpectedX_at hnd he]
          simp [hpendDone]
        · rw [if_neg hk, hmE k]
          by_cases hks : k ∈ subIds t
          · rw [← ann_map_id 0 t] at hks
            rcases List.mem_map.mp hks with ⟨f, hf, hfid⟩
            have hne : f.2.id ≠ e.2.id := fun h => hk (hfid ▸ h)
            rw [← hfid, specExpectedX_at hnd hf, specExpectedX_at hnd hf]
            simp [pendX, hDtrue f hf hne, halldone f hf]
          · rw [specExpectedX_notin hks, specExpectedX_notin hks]
      · intro k
        dsimp only
        rw [mlookup_merase]
        by_cases hk : k = e.2.id
        · rw [if_pos hk, hk, specCompletedX_at hnd he]
          simp [hpendDone]
        · rw [if_neg hk, hmC k]
          by_cases hks : k ∈ subIds t
          · rw [← ann_map_id 0 t] at hks
            rcases List.mem_map.mp hks with ⟨f, hf, hfid⟩
            have hne : f.2.id ≠ e.2.id := fun h => hk (hfid ▸ h)
            rw [← hfid, specCompletedX_at hnd hf, specCompletedX_at hnd hf]
            simp [pendX, hDtrue f hf hne, halldone f hf]
          · rw [specCompletedX_notin hks, specCompletedX_notin hks]
      · intro k
        dsimp only
        rw [hmO k]
        by_cases hks : k ∈ subIds t
        · rw [← ann_map_id 0 t] at hks
          rcases List.mem_map.mp hks with ⟨f, hf, hfid⟩
          rw [← hfid, specOrphansX_at hnd hf, specOrphansX_at hnd hf]
          simp [doneB_arrived (halldone f hf)]
        · rw [specOrphansX_notin hks, specOrphansX_notin hks]
      · have honly : ∀ f ∈ ann 0 t, doneB S' f.2 = true →
            e.2.id ∈ subIds f.2 → f = e := by
          intro f hf _ hm
          have heid : t.id ∈ subIds f.2 := by rw [← ht2]; exact hm
          have hft := root_contained_only_self hnd hf heid
          rw [hft, ← het]
        rw [newly_single hnd he hdone honly]
        simp
    next hcond =>
      -- Not a stop: `e` has a real parent.
      have hp : e.1 ≠ 0 := by
        intro h
        apply hcond
        simp [h]
      obtain ⟨fp, hfp, hfpid, hch⟩ := parent_pair he hp
      have hEne : e.1 ≠ e.2.id := parent_ne_self hnd he hp
      have hmemfp : e.2.id ∈ subIds fp.2 :=
        child_subIds_sub hch e.2.id (id_mem_subIds e.2)
      have hDfp : doneD e.2 S' fp.2 = false := by
        simp [doneD, (memI_iff _ _).mpr hmemfp]
      have hplook : mlookup (merase σ.partials e.2.id) e.1 =
          specPartialsX t S' (doneD e.2 S') e.1 := by
        rw [mlookup_merase, if_neg hEne, hmP e.1]
      split at hres
      next pr hpr =>
        -- Parent pending: fold `e.2` into it.
        rw [hpar] at hpr
        have harrfp : arrivedB S' fp.2 = true := by
          rw [hplook, ← hfpid, specPartialsX_at hnd hfp] at hpr
          rcases Bool.eq_false_or_eq_true (arrivedB S' fp.2) with h | h
          · exact h
          · exfalso
            simp [pendX, hDfp, h] at hpr
        have hpendfp : pendX S' (doneD e.2 S') fp.2 = true := by
          simp [pendX, harrfp, hDfp]
        have hprval : pr = pRollupX (doneD e.2 S') fp.2 := by
          rw [hplook, ← hfpid, specPartialsX_at hnd hfp] at hpr
          simp only [hpendfp, if_true] at hpr
          exact (Option.some.inj hpr).symm
        have hcomp : (mlookup (merase σ.completed e.2.id) e.1).getD 0 =
            kcountX (doneD e.2 S') fp.2 := by
          rw [mlookup_merase, if_neg hEne, hmC e.1, ← hfpid,
            specCompletedX_at hnd hfp]
          simp [hpendfp]
        have hexp : (mlookup (merase σ.expected e.2.id) e.1).getD 0 =
            (fp.2.children.length : Int) := by
          rw [mlookup_merase, if_neg hEne, hmE e.1, ← hfpid,
            specExpectedX_at hnd hfp]
          simp [hpendfp]
        have hndch : (fp.2.children.map DirTree.id).Nodup :=
          children_map_id_nodup hnd hfp
        have hD'e : doneD fp.2 S' e.2 = true :=
          doneD_parent_at_self hnd he hp hfpid hdone
        have hagree : ∀ c ∈ fp.2.children, c.id ≠ e.2.id →
            doneD fp.2 S' c = doneD e.2 S' c := by
          intro c hc hcne
          exact (doneD_parent_transfer hnd he hp hfpid (fp.2.id, c)
            (child_pair_mem hfp hc) hcne).symm
        have hpr2 : pRollupX (doneD fp.2 S') fp.2 =
            addChildRollup (pRollupX (doneD e.2 S') fp.2) (rollupOf e.2) :=
          pRollupX_update hndch hch hDe hD'e hagree
        have hc2 : kcountX (doneD fp.2 S') fp.2 =
            kcountX (doneD e.2 S') fp.2 + 1 :=
          kcountX_update hndch hch hDe hD'e hagree
        have hD'fp : doneD fp.2 S' fp.2 = false := doneD_self fp.2 S'
        have hpendfp' : pendX S' (doneD fp.2 S') fp.2 = true := by
          simp [pendX, harrfp, hD'fp]
        have hextF : ∀ k, k ≠ e.2.id → k ≠ e.1 →
            ∀ f ∈ ann 0 t, f.2.id = k →
              arrivedB S' f.2 = arrivedB S' f.2 ∧
              doneD e.2 S' f.2 = doneD fp.2 S' f.2 ∧
              ∀ c ∈ f.2.children, doneD e.2 S' c = doneD fp.2 S' c := by
          intro k hk1 hk2 f hf hfid
          refine ⟨rfl, doneD_parent_transfer hnd he hp hfpid f hf
            (fun h => hk1 (hfid ▸ h)), ?_⟩
          intro c hc
          by_cases hcid : c.id = e.2.id
          · exfalso
            have hfe1 := (child_pair_unique hnd he hf hc hcid).1
            exact hk2 (hfid ▸ hfe1)
          · exact doneD_parent_transfer hnd he hp hfpid (f.2.id, c)
              (child_pair_mem hf hc) hcid
        have hmid2 : StateX t S' (doneD fp.2 S')
            { roots := σ.roots
              parents := merase σ.parents e.2.id
              partials := minsert (merase σ.partials e.2.id) e.1
                (addChildRollup pr (rollupOf e.2))
              expected := merase σ.expected e.2.id
              completed := minsert (merase σ.completed e.2.id) e.1
                ((mlookup (merase σ.completed e.2.id) e.1).getD 0 + 1)
              orphans := σ.orphans } := by
          refine ⟨?_, ?_, ?_, ?_, ?_⟩ <;> intro k
          · dsimp only
            rw [mlookup_minsert]
            by_cases hk : k = e.1
            · rw [if_pos hk, hk, ← hfpid, specPartialsX_at hnd hfp]
              rw [hprval, ← hpr2]
              simp [hpendfp']
            · rw [if_neg hk, mlookup_merase]
              by_cases hk2 : k = e.2.id
              · rw [if_pos hk2, hk2, specPartialsX_at hnd he]
                simp [pendX, hD'e]
              · rw [if_neg hk2, hmP k]
                exact specPartialsX_ext k (hextF k hk2 hk)
          · dsimp only
            rw [mlookup_merase]
            by_cases hk2 : k = e.2.id
            · rw [if_pos hk2, hk2, specParentX_at hnd he]
              simp [pendX, hD'e]
            · rw [if_neg hk2]
              by_cases hk : k = e.1
              · rw [hk, hmPar e.1, ← hfpid, specParentX_at hnd hfp,
                  specParentX_at hnd hfp]
                simp [hpendfp, hpendfp']
              · rw [hmPar k]
                exact specParentX_ext k (hextF k hk2 hk)
          · dsimp only
            rw [mlookup_merase]
            by_cases hk2 : k = e.2.id
            · rw [if_pos hk2, hk2, specExpectedX_at hnd he]
              simp [pendX, hD'e]
            · rw [if_neg hk2]
              by_cases hk : k = e.1
              · rw [hk, hmE e.1, ← hfpid, specExpectedX_at hnd hfp,
                  specExpectedX_at hnd hfp]
                simp [hpendfp, hpendfp']
              · rw [hmE k]
                exact specExpectedX_ext k (hextF k hk2 hk)
          · dsimp only
            rw [mlookup_minsert]
            by_cases hk : k = e.1
            · rw [if_pos hk, hk, hcomp, ← hfpid, specCompletedX_at hnd hfp]
              rw [← hc2]
              simp [hpendfp']
            · rw [if_neg hk, mlookup_merase]
              by_cases hk2 : k = e.2.id
              · rw [if_pos hk2, hk2, specCompletedX_at hnd he]
                simp [pendX, hD'e]
              · rw [if_neg hk2, hmC k]
                exact specCompletedX_ext k (hextF k hk2 hk)
          · dsimp only
            rw [hmO k]
            by_cases hk2 : k = e.2.id
            · rw [hk2, specOrphansX_at hnd he, specOrphansX_at hnd he]
              simp [harr]
            · by_cases hk : k = e.1
              · rw [hk, ← hfpid, specOrphansX_at hnd hfp,
                  specOrphansX_at hnd hfp]
                simp [harrfp]
              · exact specOrphansX_ext k (hextF k hk2 hk)
        split at hres
        next hlt =>
          -- Parent still short of expected children: stop.
          have hltv : kcountX (doneD e.2 S') fp.2 + 1 <
              (fp.2.children.length : Int) := by
            rw [hcomp, hexp] at hlt
            exact hlt
          have hnotdone : doneB S' fp.2 = false := by
            rcases Bool.eq_false_or_eq_true (doneB S' fp.2) with h | h
            · exfalso
              have hcd := children_done h
              have hallD' : ∀ c ∈ fp.2.children, doneD fp.2 S' c = true := by
                intro c hc
                rw [doneD_of_not_mem (id_not_in_child_sub hnd hfp hc)]
                exact hcd c hc
              have : kcountX (doneD fp.2 S') fp.2 =
                  (fp.2.children.length : Int) := by
                simp [kcountX, kidsX_eq_children hallD']
              rw [hc2] at this
              omega
            · exact h
          have hfinal := stateX_congr
            (doneD_eq_doneB_of_not_done hnd hfp hnotdone) hmid2
          rw [hres]
          refine ⟨hfinal, rfl, ?_⟩
          have honly : ∀ f ∈ ann 0 t, doneB S' f.2 = true →
              e.2.id ∈ subIds f.2 → f = e := by
            intro f hf hdf hm
            by_cases hfe : f.2.id = e.2.id
            · exact ann_unique hnd hf he hfe
            · exfalso
              have hm1 : e.1 ∈ subIds f.2 :=
                (anc_transfer hnd he hp hf hfe).mp hm
              have hm2 : fp.2.id ∈ subIds f.2 := by rw [hfpid]; exact hm1
              have hsub := sub_of_mem_sub hnd hf hfp hm2
              have hdfp : doneB S' fp.2 = true :=
                doneB_iff.mpr (fun i hi => doneB_iff.mp hdf i (hsub i hi))
              rw [hdfp] at hnotdone
              exact absurd hnotdone (by simp)
          rw [newly_single hnd he hdone honly]
          simp
        next hge =>
          -- Parent complete as well: cascade.
          have hgev : (fp.2.children.length : Int) ≤
              kcountX (doneD e.2 S') fp.2 + 1 := by
            rw [hcomp, hexp] at hge
            omega
          have hallD' : ∀ c ∈ fp.2.children, doneD fp.2 S' c = true := by
            apply kidsX_all_of_len
            rw [hc2]
            exact hgev
          have hdonefp : doneB S' fp.2 = true := by
            rw [doneB_eq_children]
            simp only [harrfp, Bool.true_and, List.all_eq_true]
            intro c hc
            exact doneD_done (hallD' c hc)
          have IH := markComplete_spec hnd h0
            { roots := σ.roots
              parents := merase σ.parents e.2.id
              partials := minsert (merase σ.partials e.2.id) e.1
                (addChildRollup pr (rollupOf e.2))
              expected := merase σ.expected e.2.id
              completed := minsert (merase σ.completed e.2.id) e.1
                ((mlookup (merase σ.completed e.2.id) e.1).getD 0 + 1)
              orphans := σ.orphans }
            hroots fp hfp hdonefp hmid2
          rw [hfpid] at IH
          rw [hres]
          refine ⟨IH.1, IH.2.1, ?_⟩
          have hm1 := (newly_shift hnd he hp hdone).map
            (fun f => rollupOf f.2)
          exact ((IH.2.2.cons (rollupOf e.2)).trans hm1.symm)
      next hpr =>
        -- Parent not pending: its dir-completion has not arrived; orphan.
        rw [hpar] at hpr
        have harrfpF : arrivedB S' fp.2 = false := by
          rw [hplook, ← hfpid, specPartialsX_at hnd hfp] at hpr
          rcases Bool.eq_false_or_eq_true (arrivedB S' fp.2) with h | h
          · exfalso
            simp [pendX, hDfp, h] at hpr
          · exact h
        have hout : e.1 ∉ S' := by
          intro hmem
          have harrT : arrivedB S' fp.2 = true :=
            arrivedB_iff.mpr (by rw [hfpid]; exact hmem)
          rw [harrT] at harrfpF
          exact absurd harrfpF (by simp)
        have hagreeAll : ∀ f ∈ ann 0 t, f.2.id ≠ e.2.id →
            doneD e.2 S' f.2 = doneB S' f.2 :=
          doneD_eq_doneB_of_parent_out hnd he hp hout
        have hextO : ∀ k, k ≠ e.2.id → k ≠ e.1 →
            ∀ f ∈ ann 0 t, f.2.id = k →
              arrivedB S' f.2 = arrivedB S' f.2 ∧
              doneD e.2 S' f.2 = doneB S' f.2 ∧
              ∀ c ∈ f.2.children, doneD e.2 S' c = doneB S' c := by
          intro k hk1 hk2 f hf hfid
          refine ⟨rfl, hagreeAll f hf (fun h => hk1 (hfid ▸ h)), ?_⟩
          intro c hc
          by_cases hcid : c.id = e.2.id
          · exfalso
            have hfe1 := (child_pair_unique hnd he hf hc hcid).1
            exact hk2 (hfid ▸ hfe1)
          · exact hagreeAll (f.2.id, c) (child_pair_mem hf hc) hcid
        have hndch : (fp.2.children.map DirTree.id).Nodup :=
          children_map_id_nodup hnd hfp
        have hsib : ∀ c ∈ fp.2.children, c.id ≠ e.2.id →
            doneB S' c = doneD e.2 S' c := by
          intro c hc hcne
          exact (doneD_agree_on_siblings hnd hfp hch c hc hcne).symm
        have hkc' : kcountX (doneB S') fp.2 =
            kcountX (doneD e.2 S') fp.2 + 1 :=
          kcountX_update hndch hch hDe hdone hsib
        have horph' : orphX (doneB S') fp.2 =
            { dirID := 0
              totalSize := (orphX (doneD e.2 S') fp.2).totalSize +
                (rollupOf e.2).totalSize
              totalBlocks := (orphX (doneD e.2 S') fp.2).totalBlocks +
                (rollupOf e.2).totalBlocks
              totalFiles := (orphX (doneD e.2 S') fp.2).totalFiles +
                (rollupOf e.2).totalFiles
              totalDirs := (orphX (doneD e.2 S') fp.2).totalDirs +
                (rollupOf e.2).totalDirs + 1 } :=
          orphX_update hndch hch hDe hdone hsib
        have holdv : (mlookup σ.orphans e.1).getD ⟨⟨0, 0, 0, 0, 0⟩, 0⟩ =
            ⟨orphX (doneD e.2 S') fp.2, kcountX (doneD e.2 S') fp.2⟩ := by
          rw [hmO e.1, ← hfpid, specOrphansX_at hnd hfp]
          by_cases h : 0 < kcountX (doneD e.2 S') fp.2
          · simp [harrfpF, h]
          · have h0 : kcountX (doneD e.2 S') fp.2 = 0 := by
              have := kcountX_nonneg (doneD e.2 S') fp.2
              omega
            have hnil : kidsX (doneD e.2 S') fp.2 = [] :=
              kidsX_nil_of_nonpos (le_of_eq h0)
            simp [harrfpF, h, orphX_nil hnil, h0]
        rw [hres]
        refine ⟨⟨?_, ?_, ?_, ?_, ?_⟩, rfl, ?_⟩
        · intro k
          dsimp only
          rw [mlookup_merase]
          by_cases hk2 : k = e.2.id
          · rw [if_pos hk2, hk2, specPartialsX_at hnd he]
            simp [hpendDone]
          · rw [if_neg hk2, hmP k]
            by_cases hk : k = e.1
            · rw [hk, ← hfpid, specPartialsX_at hnd hfp,
                specPartialsX_at hnd hfp]
              simp [pendX, harrfpF]
            · exact specPartialsX_ext k (hextO k hk2 hk)
        · intro k
          dsimp only
          rw [mlookup_merase]
          by_cases hk2 : k = e.2.id
          · rw [if_pos hk2, hk2, specParentX_at hnd he]
            simp [hpendDone]
          · rw [if_neg hk2, hmPar k]
            by_cases hk : k = e.1
            · rw [hk, ← hfpid, specParentX_at hnd hfp,
                specParentX_at hnd hfp]
              simp [pendX, harrfpF]
            · exact specParentX_ext k (hextO k hk2 hk)
        · intro k
          dsimp only
          rw [mlookup_merase]
          by_cases hk2 : k = e.2.id
          · rw [if_pos hk2, hk2, specExpectedX_at hnd he]
            simp [hpendDone]
          · rw [if_neg hk2, hmE k]
            by_cases hk : k = e.1
            · rw [hk, ← hfpid, specExpectedX_at hnd hfp,
                specExpectedX_at hnd hfp]
              simp [pendX, harrfpF]
            · exact specExpectedX_ext k (hextO k hk2 hk)
        · intro k
          dsimp only
          rw [mlookup_merase]
          by_cases hk2 : k = e.2.id
          · rw [if_pos hk2, hk2, specCompletedX_at hnd he]
            simp [hpendDone]
          · rw [if_neg hk2, hmC k]
            by_cases hk : k = e.1
            · rw [hk, ← hfpid, specCompletedX_at hnd hfp,
                specCompletedX_at hnd hfp]
              simp [pendX, harrfpF]
            · exact specCompletedX_ext k (hextO k hk2 hk)
        · intro k
          dsimp only
          simp only [addOrphan]
          rw [mlookup_minsert]
          by_cases hk : k = e.1
          · rw [if_pos hk, hk, holdv, ← hfpid, specOrphansX_at hnd hfp]
            have hcond2 : arrivedB S' fp.2 = false ∧
                0 < kcountX (doneB S') fp.2 := by
              refine ⟨harrfpF, ?_⟩
              rw [hkc']
              have := kcountX_nonneg (doneD e.2 S') fp.2
              omega
            rw [if_pos hcond2, horph', hkc']
            rfl
          · rw [if_neg hk]
            by_cases hk2 : k = e.2.id
            · rw [hk2, hmO e.2.id, specOrphansX_at hnd he,
                specOrphansX_at hnd he]
              simp [harr]
            · rw [hmO k]
              exact specOrphansX_ext k (hextO k hk2 hk)
        · have honly : ∀ f ∈ ann 0 t, doneB S' f.2 = true →
              e.2.id ∈ subIds f.2 → f = e := by
            intro f hf hdf hm
            by_cases hfe : f.2.id = e.2.id
            · exact ann_unique hnd hf he hfe
            · exfalso
              have hm1 : e.1 ∈ subIds f.2 :=
                (anc_transfer hnd he hp hf hfe).mp hm
              exact hout (doneB_iff.mp hdf e.1 hm1)
          rw [newly_single hnd he hdone honly]
          simp
termination_by σ.partials.length
decreasing_by
  have h1 : (merase σ.partials e.2.id).length < σ.partials.length :=
    merase_length_lt hlook
  have hml : mlookup (merase σ.partials e.2.id) e.1 =
      some (pRollupX (doneD e.2 S') fp.2) := by
    rw [hplook, ← hfpid, specPartialsX_at hnd hfp]
    simp [hpendfp]
  have h2' : (merase (merase σ.partials e.2.id) e.1).length
      < (merase σ.partials e.2.id).length := merase_length_lt hml
  simp only [minsert, List.length_cons]
  omega

/-! ## Arrival-step bridging lemmas -/

theorem doneD_cons_self (x : DirTree) (S : List Int) (z : DirTree) :
    doneD x (x.id :: S) z = doneD x S z := by
  by_cases hm : x.id ∈ subIds z
  · simp only [doneD, (memI_iff _ _).mpr hm]
    simp
  · have h1 : doneB (x.id :: S) z = doneB S z := doneB_cons_of_not_mem hm
    simp only [doneD, h1]

theorem doneD_eq_doneB_of_fresh {x : DirTree} {S : List Int}
    (hnew : x.id ∉ S) (z : DirTree) : doneD x S z = doneB S z := by
  by_cases hm : x.id ∈ subIds z
  · have hdf : doneB S z = false := by
      rcases Bool.eq_false_or_eq_true (doneB S z) with h | h
      · exact absurd (doneB_iff.mp h x.id hm) hnew
      · exact h
    simp [doneD, hdf]
  · have hmF : memI x.id (subIds z) = false :=
      Bool.eq_false_iff.mpr (fun hh => hm ((memI_iff _ _).mp hh))
    simp [doneD, hmF]

theorem kidsX_congr {D D' : DirTree → Bool} {y : DirTree}
    (h : ∀ c ∈ y.children, D c = D' c) : kidsX D y = kidsX D' y := by
  simp only [kidsX]
  exact List.filter_congr h

/-- `handleResult` on a fresh record restores the quiescent invariant for the
extended arrival set and emits exactly the newly completed rollups. -/
theorem handleResult_step {t : DirTree} {S : List Int} {σ : AggState}
    (hnd : (subIds t).Nodup) (h0 : 0 ∉ subIds t)
    (hroots : RootsOK σ.roots t)
    {e : Int × DirTree} (he : e ∈ ann 0 t) (hnew : e.2.id ∉ S)
    (hmm : MapsMatch t S σ) :
    MapsMatch t (e.2.id :: S) (handleResult σ (recOf e.1 e.2)).1 ∧
    (handleResult σ (recOf e.1 e.2)).1.roots = σ.roots ∧
    (handleResult σ (recOf e.1 e.2)).2.Perm
      (((ann 0 t).filter
          (fun f => doneB (e.2.id :: S) f.2 && !doneB S f.2)).map
        (fun f => rollupOf f.2)) := by
  obtain ⟨hmP, hmPar, hmE, hmC, hmO⟩ := hmm
  have harrS : arrivedB S e.2 = false := by
    rcases Bool.eq_false_or_eq_true (arrivedB S e.2) with h | h
    · have h' : memI e.2.id S = true := h
      exact absurd ((memI_iff _ _).mp h') hnew
    · exact h
  have hdoneS : doneB S e.2 = false := by
    rcases Bool.eq_false_or_eq_true (doneB S e.2) with h | h
    · have h2 := doneB_arrived h
      rw [h2] at harrS
      exact absurd harrS (by simp)
    · exact h
  have harrS' : arrivedB (e.2.id :: S) e.2 = true := by
    show memI e.2.id (e.2.id :: S) = true
    exact (memI_iff _ _).mpr (List.mem_cons_self _ _)
  have hDD : ∀ z, doneD e.2 (e.2.id :: S) z = doneB S z := by
    intro z
    rw [doneD_cons_self, doneD_eq_doneB_of_fresh hnew]
  have hDe : doneD e.2 (e.2.id :: S) e.2 = false := doneD_self _ _
  have hpend' : pendX (e.2.id :: S) (doneD e.2 (e.2.id :: S)) e.2 = true := by
    simp [pendX, harrS', hDe]
  have hkids : kidsX (doneD e.2 (e.2.id :: S)) e.2 = kidsX (doneB S) e.2 :=
    kidsX_congr (fun c _ => hDD c)
  have hkc_eq : kcountX (doneD e.2 (e.2.id :: S)) e.2 =
      kcountX (doneB S) e.2 := by
    simp [kcountX, hkids]
  have hext : ∀ k, k ≠ e.2.id → ∀ f ∈ ann 0 t, f.2.id = k →
      arrivedB S f.2 = arrivedB (e.2.id :: S) f.2 ∧
      doneB S f.2 = doneD e.2 (e.2.id :: S) f.2 ∧
      ∀ c ∈ f.2.children, doneB S c = doneD e.2 (e.2.id :: S) c := by
    intro k hk f hf hfid
    exact ⟨(arrivedB_cons_of_ne (fun h => hk (hfid ▸ h))).symm,
      (hDD f.2).symm, fun c _ => (hDD c).symm⟩
  have hfe : ∀ f ∈ ann 0 t,
      (doneB (e.2.id :: S) f.2 && !doneB S f.2) =
      (doneB (e.2.id :: S) f.2 && memI e.2.id (subIds f.2)) := by
    intro f hf
    by_cases hm : e.2.id ∈ subIds f.2
    · have hds : doneB S f.2 = false := by
        rcases Bool.eq_false_or_eq_true (doneB S f.2) with h | h
        · exact absurd (doneB_iff.mp h e.2.id hm) hnew
        · exact h
      rw [hds, (memI_iff _ _).mpr hm]
      simp
    · have hmF : memI e.2.id (subIds f.2) = false :=
        Bool.eq_false_iff.mpr (fun hh => hm ((memI_iff _ _).mp hh))
      rw [hmF, doneB_cons_of_not_mem hm]
      cases doneB S f.2 <;> simp
  have hcompv : (mlookup σ.completed e.2.id).getD 0 = 0 := by
    rw [hmC e.2.id, specCompletedX_at hnd he]
    simp [pendX, harrS]
  have horphv : mlookup σ.orphans e.2.id =
      if 0 < kcountX (doneB S) e.2 then
        some ⟨orphX (doneB S) e.2, kcountX (doneB S) e.2⟩
      else none := by
    rw [hmO e.2.id, specOrphansX_at hnd he]
    simp [harrS]
  set res := handleResult σ (recOf e.1 e.2) with hres
  simp only [handleResult, recOf] at hres
  split at hres
  next orph horph =>
    rw [horphv] at horph
    by_cases hkc : 0 < kcountX (doneB S) e.2
    case neg =>
      rw [if_neg hkc] at horph
      exact absurd horph (by simp)
    case pos =>
      rw [if_pos hkc] at horph
      injection horph with horph
      subst horph
      dsimp only at hres
      have hr1 : (⟨e.2.id, e.2.fsize + (orphX (doneB S) e.2).totalSize,
          e.2.fblocks + (orphX (doneB S) e.2).totalBlocks,
          e.2.fcount + (orphX (doneB S) e.2).totalFiles,
          0 + (orphX (doneB S) e.2).totalDirs⟩ : Rollup) =
          pRollupX (doneD e.2 (e.2.id :: S)) e.2 := by
        simp [pRollupX, hkids, orphX]
      have hmidb : StateX t (e.2.id :: S) (doneD e.2 (e.2.id :: S))
          { roots := σ.roots
            parents := minsert σ.parents e.2.id e.1
            partials := minsert (minsert σ.partials e.2.id
                ⟨e.2.id, e.2.fsize, e.2.fblocks, e.2.fcount, 0⟩) e.2.id
                ⟨e.2.id, e.2.fsize + (orphX (doneB S) e.2).totalSize,
                 e.2.fblocks + (orphX (doneB S) e.2).totalBlocks,
                 e.2.fcount + (orphX (doneB S) e.2).totalFiles,
                 0 + (orphX (doneB S) e.2).totalDirs⟩
            expected := minsert σ.expected e.2.id (e.2.children.length : Int)
            completed := minsert σ.completed e.2.id
              ((mlookup σ.completed e.2.id).getD 0 + kcountX (doneB S) e.2)
            orphans := merase σ.orphans e.2.id } := by
        refine ⟨?_, ?_, ?_, ?_, ?_⟩ <;> intro k
        · dsimp only
          rw [mlookup_minsert]
          by_cases hk : k = e.2.id
          · rw [if_pos hk, hk, specPartialsX_at hnd he, hr1]
            simp [hpend']
          · rw [if_neg hk, mlookup_minsert, if_neg hk, hmP k]
            exact specPartialsX_ext k (hext k hk)
        · dsimp only
          rw [mlookup_minsert]
          by_cases hk : k = e.2.id
          · rw [if_pos hk, hk, specParentX_at hnd he]
            simp [hpend']
          · rw [if_neg hk, hmPar k]
            exact specParentX_ext k (hext k hk)
        · dsimp only
          rw [mlookup_minsert]
          by_cases hk : k = e.2.id
          · rw [if_pos hk, hk, specExpectedX_at hnd he]
            simp [hpend']
          · rw [if_neg hk, hmE k]
            exact specExpectedX_ext k (hext k hk)
        · dsimp only
          rw [mlookup_minsert]
          by_cases hk : k = e.2.id
          · rw [if_pos hk, hk, specCompletedX_at hnd he]
            simp [hpend', hcompv, hkc_eq]
          · rw [if_neg hk, hmC k]
            exact specCompletedX_ext k (hext k hk)
        · dsimp only
          rw [mlookup_merase]
          by_cases hk : k = e.2.id
          · rw [if_pos hk, hk, specOrphansX_at hnd he]
            simp [harrS']
          · rw [if_neg hk, hmO k]
            exact specOrphansX_ext k (hext k hk)
      have hcompIns : (mlookup (minsert σ.completed e.2.id
          ((mlookup σ.completed e.2.id).getD 0 + kcountX (doneB S) e.2))
          e.2.id).getD 0 = kcountX (doneB S) e.2 := by
        rw [mlookup_minsert]
        simp [hcompv]
      have hexpIns : (mlookup (minsert σ.expected e.2.id
          ((e.2.children.length : Int))) e.2.id).getD 0 =
          (e.2.children.length : Int) := by
        rw [mlookup_minsert]
        simp
      split at hres
      next hge =>
        rw [hcompIns, hexpIns] at hge
        have hge' : (e.2.children.length : Int) ≤ kcountX (doneB S) e.2 := by
          omega
        have hallch := kidsX_all_of_len hge'
        have hdone' : doneB (e.2.id :: S) e.2 = true := by
          rw [doneB_eq_children]
          simp only [harrS', Bool.true_and, List.all_eq_true]
          intro c hc
          exact doneB_mono (hallch c hc)
        have hspec := markComplete_spec hnd h0
          { roots := σ.roots
            parents := minsert σ.parents e.2.id e.1
            partials := minsert (minsert σ.partials e.2.id
                ⟨e.2.id, e.2.fsize, e.2.fblocks, e.2.fcount, 0⟩) e.2.id
                ⟨e.2.id, e.2.fsize + (orphX (doneB S) e.2).totalSize,
                 e.2.fblocks + (orphX (doneB S) e.2).totalBlocks,
                 e.2.fcount + (orphX (doneB S) e.2).totalFiles,
                 0 + (orphX (doneB S) e.2).totalDirs⟩
            expected := minsert σ.expected e.2.id (e.2.children.length : Int)
            completed := minsert σ.completed e.2.id
              ((mlookup σ.completed e.2.id).getD 0 + kcountX (doneB S) e.2)
            orphans := merase σ.orphans e.2.id }
          hroots e he hdone' hmidb
        rw [hres]
        refine ⟨hspec.1, hspec.2.1, ?_⟩
        rw [List.filter_congr hfe]
        exact hspec.2.2
      next hlt =>
        rw [hcompIns, hexpIns] at hlt
        have hnotall : doneB (e.2.id :: S) e.2 = false := by
          rcases Bool.eq_false_or_eq_true (doneB (e.2.id :: S) e.2) with h | h
          · exfalso
            have hcd := children_done h
            have hall : ∀ c ∈ e.2.children, doneB S c = true := by
              intro c hc
              have hni : e.2.id ∉ subIds c := id_not_in_child_sub hnd he hc
              rw [← doneB_cons_of_not_mem hni]
              exact hcd c hc
            have hkeq : kidsX (doneB S) e.2 = e.2.children :=
              kidsX_eq_children hall
            have hlen : kcountX (doneB S) e.2 =
                (e.2.children.length : Int) := by
              simp [kcountX, hkeq]
            omega
          · exact h
        have hfinal := stateX_congr
          (doneD_eq_doneB_of_not_done hnd he hnotall) hmidb
        rw [hres]
        refine ⟨hfinal, rfl, ?_⟩
        rw [List.filter_congr hfe]
        have hnil : (ann 0 t).filter
            (fun f => doneB (e.2.id :: S) f.2 && memI e.2.id (subIds f.2))
            = [] := by
          rw [List.filter_eq_nil_iff]
          intro f hf hq
          simp only [Bool.and_eq_true] at hq
          have hm := (memI_iff _ _).mp hq.2
          have hsub := sub_of_mem_sub hnd hf he hm
          have hdall : doneB (e.2.id :: S) e.2 = true :=
            doneB_iff.mpr (fun i hi => doneB_iff.mp hq.1 i (hsub i hi))
          rw [hdall] at hnotall
          exact absurd hnotall (by simp)
        rw [hnil]
        simp
  next horph =>
    have hkcF : ¬ 0 < kcountX (doneB S) e.2 := by
      intro hkc
      rw [horphv, if_pos hkc] at horph
      exact absurd horph (by simp)
    have hk0 : kcountX (doneB S) e.2 = 0 := by
      have := kcountX_nonneg (doneB S) e.2
      omega
    have hknil : kidsX (doneB S) e.2 = [] :=
      kidsX_nil_of_nonpos (le_of_eq hk0)
    have hkidsD : kidsX (doneD e.2 (e.2.id :: S)) e.2 = [] := by
      rw [hkids, hknil]
    have hr0 : (⟨e.2.id, e.2.fsize, e.2.fblocks, e.2.fcount, 0⟩ : Rollup) =
        pRollupX (doneD e.2 (e.2.id :: S)) e.2 := by
      simp [pRollupX, hkidsD, sumSize, sumBlocks, sumFiles, sumDirs]
    have hmida : StateX t (e.2.id :: S) (doneD e.2 (e.2.id :: S))
        { roots := σ.roots
          parents := minsert σ.parents e.2.id e.1
          partials := minsert σ.partials e.2.id
            ⟨e.2.id, e.2.fsize, e.2.fblocks, e.2.fcount, 0⟩
          expected := minsert σ.expected e.2.id (e.2.children.length : Int)
          completed := σ.completed
          orphans := σ.orphans } := by
      refine ⟨?_, ?_, ?_, ?_, ?_⟩ <;> intro k
      · dsimp only
        rw [mlookup_minsert]
        by_cases hk : k = e.2.id
        · rw [if_pos hk, hk, specPartialsX_at hnd he, hr0]
          simp [hpend']
        · rw [if_neg hk, hmP k]
          exact specPartialsX_ext k (hext k hk)
      · dsimp only
        rw [mlookup_minsert]
        by_cases hk : k = e.2.id
        · rw [if_pos hk, hk, specParentX_at hnd he]
          simp [hpend']
        · rw [if_neg hk, hmPar k]
          exact specParentX_ext k (hext k hk)
      · dsimp only
        rw [mlookup_minsert]
        by_cases hk : k = e.2.id
        · rw [if_pos hk, hk, specExpectedX_at hnd he]
          simp [hpend']
        · rw [if_neg hk, hmE k]
          exact specExpectedX_ext k (hext k hk)
      · dsimp only
        by_cases hk : k = e.2.id
        · rw [hk, hcompv, specCompletedX_at hnd he]
          simp [hpend', hkc_eq, hk0]
        · rw [hmC k]
          exact specCompletedX_ext k (hext k hk)
      · dsimp only
        by_cases hk : k = e.2.id
        · rw [hk, horph, specOrphansX_at hnd he]
          simp [harrS']
        · rw [hmO k]
          exact specOrphansX_ext k (hext k hk)
    have hexpIns : (mlookup (minsert σ.expected e.2.id
        ((e.2.children.length : Int))) e.2.id).getD 0 =
        (e.2.children.length : Int) := by
      rw [mlookup_minsert]
      simp
    split at hres
    next hge =>
      rw [hcompv, hexpIns] at hge
      have hge' : (e.2.children.length : Int) ≤ kcountX (doneB S) e.2 := by
        omega
      have hallch := kidsX_all_of_len hge'
      have hdone' : doneB (e.2.id :: S) e.2 = true := by
        rw [doneB_eq_children]
        simp only [harrS', Bool.true_and, List.all_eq_true]
        intro c hc
        exact doneB_mono (hallch c hc)
      have hspec := markComplete_spec hnd h0
        { roots := σ.roots
          parents := minsert σ.parents e.2.id e.1
          partials := minsert σ.partials e.2.id
            ⟨e.2.id, e.2.fsize, e.2.fblocks, e.2.fcount, 0⟩
          expected := minsert σ.expected e.2.id (e.2.children.length : Int)
          completed := σ.completed
          orphans := σ.orphans }
        hroots e he hdone' hmida
      rw [hres]
      refine ⟨hspec.1, hspec.2.1, ?_⟩
      rw [List.filter_congr hfe]
      exact hspec.2.2
    next hlt =>
      rw [hcompv, hexpIns] at hlt
      have hnotall : doneB (e.2.id :: S) e.2 = false := by
        rcases Bool.eq_false_or_eq_true (doneB (e.2.id :: S) e.2) with h | h
        · exfalso
          have hcd := children_done h
          have hall : ∀ c ∈ e.2.children, doneB S c = true := by
            intro c hc
            have hni : e.2.id ∉ subIds c := id_not_in_child_sub hnd he hc
            rw [← doneB_cons_of_not_mem hni]
            exact hcd c hc
          have hkeq : kidsX (doneB S) e.2 = e.2.children :=
            kidsX_eq_children hall
          have hlen : kcountX (doneB S) e.2 =
              (e.2.children.length : Int) := by
            simp [kcountX, hkeq]
          omega
        · exact h
      have hfinal := stateX_congr
        (doneD_eq_doneB_of_not_done hnd he hnotall) hmida
      rw [hres]
      refine ⟨hfinal, rfl, ?_⟩
      rw [List.filter_congr hfe]
      have hnil : (ann 0 t).filter
          (fun f => doneB (e.2.id :: S) f.2 && memI e.2.id (subIds f.2))
          = [] := by
        rw [List.filter_eq_nil_iff]
        intro f hf hq
        simp only [Bool.and_eq_true] at hq
        have hm := (memI_iff _ _).mp hq.2
        have hsub := sub_of_mem_sub hnd hf he hm
        have hdall : doneB (e.2.id :: S) e.2 = true :=
          doneB_iff.mpr (fun i hi => doneB_iff.mp hq.1 i (hsub i hi))
        rw [hdall] at hnotall
        exact absurd hnotall (by simp)
      rw [hnil]
      simp

/-! ## The whole run: induction over the consumed stream -/

theorem arrivedB_nil (y : DirTree) : arrivedB [] y = false := rfl

theorem doneB_nil (y : DirTree) : doneB [] y = false := by
  rw [doneB_eq_children, arrivedB_nil]
  simp

theorem doneB_subset {S S' : List Int} (hsub : ∀ i ∈ S, i ∈ S')
    {y : DirTree} (h : doneB S y = true) : doneB S' y = true :=
  doneB_iff.mpr (fun i hi => hsub _ (doneB_iff.mp h i hi))

theorem specPartialsX_nilS (t : DirTree) (D : DirTree → Bool) (k : Int) :
    specPartialsX t [] D k = none := by
  simp only [specPartialsX]
  cases hf : findAnn t k with
  | none => rfl
  | some e =>
    dsimp only
    have hp : pendX [] D e.2 = false := by simp [pendX, arrivedB_nil]
    simp [hp]

theorem specParentX_nilS (t : DirTree) (D : DirTree → Bool) (k : Int) :
    specParentX t [] D k = 0 := by
  simp only [specParentX]
  cases hf : findAnn t k with
  | none => rfl
  | some e =>
    dsimp only
    have hp : pendX [] D e.2 = false := by simp [pendX, arrivedB_nil]
    simp [hp]

theorem specExpectedX_nilS (t : DirTree) (D : DirTree → Bool) (k : Int) :
    specExpectedX t [] D k = 0 := by
  simp only [specExpectedX]
  cases hf : findAnn t k with
  | none => rfl
  | some e =>
    dsimp only
    have hp : pendX [] D e.2 = false := by simp [pendX, arrivedB_nil]
    simp [hp]

theorem specCompletedX_nilS (t : DirTree) (D : DirTree → Bool) (k : Int) :
    specCompletedX t [] D k = 0 := by
  simp only [specCompletedX]
  cases hf : findAnn t k with
  | none => rfl
  | some e =>
    dsimp only
    have hp : pendX [] D e.2 = false := by simp [pendX, arrivedB_nil]
    simp [hp]

theorem specOrphansX_nilS (t : DirTree) (k : Int) :
    specOrphansX t [] (doneB []) k = none := by
  simp only [specOrphansX]
  cases hf : findAnn t k with
  | none => rfl
  | some e =>
    dsimp only
    have hnil : kidsX (doneB []) e.2 = [] := by
      simp only [kidsX, List.filter_eq_nil_iff]
      intro c _
      simp [doneB_nil]
    have hk0 : kcountX (doneB []) e.2 = 0 := by simp [kcountX, hnil]
    simp [hk0]

/-- The fresh aggregator satisfies the invariant for the empty arrival set. -/
theorem mapsMatch_init (t : DirTree) (roots : List Int) :
    MapsMatch t [] (initAgg roots) := by
  refine ⟨?_, ?_, ?_, ?_, ?_⟩ <;> intro k <;>
    simp [initAgg, mlookup, specPartialsX_nilS, specParentX_nilS,
      specExpectedX_nilS, specCompletedX_nilS, specOrphansX_nilS]

/-- Feeding any duplicate-free batch of fresh tree records preserves the
invariant and emits exactly the newly completed rollups. -/
theorem runFrom_spec {t : DirTree} (hnd : (subIds t).Nodup)
    (h0 : 0 ∉ subIds t) :
    ∀ (P : List (Int × DirTree)) (S : List Int) (σ : AggState),
      RootsOK σ.roots t →
      (∀ f ∈ P, f ∈ ann 0 t) →
      (P.map (fun f => f.2.id)).Nodup →
      (∀ f ∈ P, f.2.id ∉ S) →
      MapsMatch t S σ →
      MapsMatch t ((P.map (fun f => f.2.id)).reverse ++ S)
        (runFrom σ (P.map (fun f => recOf f.1 f.2))).1 ∧
      (runFrom σ (P.map (fun f => recOf f.1 f.2))).1.roots = σ.roots ∧
      (runFrom σ (P.map (fun f => recOf f.1 f.2))).2.Perm
        (((ann 0 t).filter (fun f =>
            doneB ((P.map (fun g => g.2.id)).reverse ++ S) f.2 &&
            !doneB S f.2)).map (fun f => rollupOf f.2)) := by
  intro P
  induction P with
  | nil =>
    intro S σ hroots hmem hndP hfresh hmm
    simp only [List.map_nil, runFrom, List.reverse_nil, List.nil_append]
    refine ⟨hmm, by trivial, ?_⟩
    have hnil : (ann 0 t).filter
        (fun f => doneB S f.2 && !doneB S f.2) = [] := by
      rw [List.filter_eq_nil_iff]
      intro f _
      simp
    rw [hnil]
    simp
  | cons x P' ih =>
    intro S σ hroots hmem hndP hfresh hmm
    have hx : x ∈ ann 0 t := hmem x (List.mem_cons_self _ _)
    have hxS : x.2.id ∉ S := hfresh x (List.mem_cons_self _ _)
    obtain ⟨hmm1, hroots1, hperm1⟩ :=
      handleResult_step hnd h0 hroots hx hxS hmm
    simp only [List.map_cons, List.nodup_cons] at hndP
    have hroots1' : RootsOK (handleResult σ (recOf x.1 x.2)).1.roots t := by
      rw [hroots1]
      exact hroots
    have hmemP' : ∀ f ∈ P', f ∈ ann 0 t :=
      fun f hf => hmem f (List.mem_cons_of_mem _ hf)
    have hfreshP' : ∀ f ∈ P', f.2.id ∉ (x.2.id :: S) := by
      intro f hf hmem2
      rcases List.mem_cons.mp hmem2 with h | h
      · exact hndP.1 (h ▸ List.mem_map_of_mem _ hf)
      · exact hfresh f (List.mem_cons_of_mem _ hf) h
    obtain ⟨hmm2, hroots2, hperm2⟩ := ih (x.2.id :: S)
      (handleResult σ (recOf x.1 x.2)).1 hroots1' hmemP' hndP.2 hfreshP' hmm1
    have heqS : (((x :: P').map (fun f => f.2.id)).reverse ++ S) =
        ((P'.map (fun f => f.2.id)).reverse ++ (x.2.id :: S)) := by
      simp
    rw [heqS]
    simp only [List.map_cons, runFrom]
    refine ⟨hmm2, hroots2.trans hroots1, ?_⟩
    have hsubset : ∀ i ∈ (x.2.id :: S),
        i ∈ ((P'.map (fun g => g.2.id)).reverse ++ (x.2.id :: S)) :=
      fun i hi => List.mem_append.mpr (Or.inr hi)
    have hpt : ∀ f ∈ ann 0 t,
        ((doneB ((P'.map (fun g => g.2.id)).reverse ++ (x.2.id :: S)) f.2 &&
            !doneB S f.2) &&
          !(doneB (x.2.id :: S) f.2 && !doneB S f.2)) =
        (doneB ((P'.map (fun g => g.2.id)).reverse ++ (x.2.id :: S)) f.2 &&
          !doneB (x.2.id :: S) f.2) := by
      intro f _
      rcases Bool.eq_false_or_eq_true (doneB S f.2) with ha | ha
      · rw [ha, doneB_mono ha]
        simp
      · rw [ha]
        simp
    have hmono : ∀ f ∈ ann 0 t,
        (doneB (x.2.id :: S) f.2 && !doneB S f.2) = true →
        (doneB ((P'.map (fun g => g.2.id)).reverse ++ (x.2.id :: S)) f.2 &&
          !doneB S f.2) = true := by
      intro f _ hq
      simp only [Bool.and_eq_true] at hq ⊢
      exact ⟨doneB_subset hsubset hq.1, hq.2⟩
    have hmp := filter_mono_perm hmono
    rw [List.filter_congr hpt] at hmp
    exact ((hperm1.append hperm2).trans
      (by rw [← List.map_append]; exact (hmp.map _).symm))

theorem rollupOf_id (y : DirTree) : (rollupOf y).dirID = y.id := by
  cases y with
  | node i a b c cs => simp [rollupOf, DirTree.id]

/-- The rollup the aggregator emitted for directory id `k` (first match). -/
def emittedFor (out : List Rollup) (k : Int) : Option Rollup :=
  out.find? (fun r => r.dirID == k)

theorem emittedFor_eq {t : DirTree} (hnd : (subIds t).Nodup)
    {out : List Rollup}
    (hperm : out.Perm ((ann 0 t).map (fun f => rollupOf f.2)))
    {e : Int × DirTree} (he : e ∈ ann 0 t) :
    emittedFor out e.2.id = some (rollupOf e.2) := by
  apply find?_eq_some_of_unique
  · exact hperm.symm.subset (List.mem_map_of_mem _ he)
  · simp [rollupOf_id]
  · intro r hr hq
    have hrm := hperm.subset hr
    rcases List.mem_map.mp hrm with ⟨g, hg, rfl⟩
    simp only [rollupOf_id, beq_iff_eq] at hq
    rw [ann_unique hnd hg he hq]

/-- Lift a permutation with a mapped list to a permutation of preimages. -/
theorem perm_map_lift {α β : Type} {f : α → β} :
    ∀ {l : List β} {m : List α}, l.Perm (m.map f) →
      ∃ p : List α, p.Perm m ∧ l = p.map f := by
  intro l
  induction l with
  | nil =>
    intro m h
    have hme : m.map f = [] := h.symm.eq_nil
    have : m = [] := List.map_eq_nil_iff.mp hme
    exact ⟨[], by rw [this], rfl⟩
  | cons a l' ih =>
    intro m h
    have ha : a ∈ m.map f := h.subset (List.mem_cons_self _ _)
    rcases List.mem_map.mp ha with ⟨x, hx, hfx⟩
    rcases List.append_of_mem hx with ⟨m1, m2, rfl⟩
    have hmap : (m1 ++ x :: m2).map f = m1.map f ++ f x :: m2.map f := by
      simp
    have h2 : (a :: l').Perm (f x :: (m1.map f ++ m2.map f)) := by
      rw [hmap] at h
      exact h.trans List.perm_middle
    rw [← hfx] at h2
    have h3 : l'.Perm (m1.map f ++ m2.map f) := h2.cons_inv
    have h4 : l'.Perm ((m1 ++ m2).map f) := by
      rw [List.map_append]
      exact h3
    rcases ih h4 with ⟨p', hp', hl'⟩
    exact ⟨x :: p', (hp'.cons x).trans List.perm_middle.symm,
      by simp [hl', hfx]⟩

/-- A full, duplicate-free stream of tree records drives the aggregator to a
clean final state: no pending or orphaned work, success, and one rollup per
node. -/
theorem aggRun_ok {t : DirTree} {roots : List Int}
    (hnd : (subIds t).Nodup) (h0 : 0 ∉ subIds t)
    (hroots : RootsOK roots t)
    {L : List (Int × DirTree)} (hperm : L.Perm (ann 0 t)) :
    aggRun roots (L.map (fun f => recOf f.1 f.2)) =
      .ok (runFrom (initAgg roots) (L.map (fun f => recOf f.1 f.2))).2 ∧
    (runFrom (initAgg roots) (L.map (fun f => recOf f.1 f.2))).2.Perm
      ((ann 0 t).map (fun f => rollupOf f.2)) ∧
    (runFrom (initAgg roots) (L.map (fun f => recOf f.1 f.2))).1.partials
      = [] ∧
    (runFrom (initAgg roots) (L.map (fun f => recOf f.1 f.2))).1.orphans
      = [] := by
  have hmem : ∀ f ∈ L, f ∈ ann 0 t := fun f hf => hperm.subset hf
  have hndL : (L.map (fun f => f.2.id)).Nodup := by
    have h1 : (L.map (fun f => f.2.id)).Perm
        ((ann 0 t).map (fun f => f.2.id)) := hperm.map _
    rw [h1.nodup_iff, ann_map_id]
    exact hnd
  have hfresh : ∀ f ∈ L, f.2.id ∉ ([] : List Int) := by
    intro f _ h
    simp at h
  obtain ⟨hmmF, _, hpermF⟩ := runFrom_spec hnd h0 L [] (initAgg roots)
    hroots hmem hndL hfresh (mapsMatch_init t roots)
  have hallids : ∀ i ∈ subIds t,
      i ∈ ((L.map (fun f => f.2.id)).reverse ++ ([] : List Int)) := by
    intro i hi
    rw [← ann_map_id 0 t] at hi
    rcases List.mem_map.mp hi with ⟨g, hg, rfl⟩
    have hgL : g ∈ L := hperm.mem_iff.mpr hg
    exact List.mem_append.mpr
      (Or.inl (List.mem_reverse.mpr (List.mem_map_of_mem _ hgL)))
  have hall : ∀ f ∈ ann 0 t,
      doneB ((L.map (fun g => g.2.id)).reverse ++ ([] : List Int)) f.2
        = true := by
    intro f hf
    exact doneB_iff.mpr (fun i hi => hallids i (subIds_sub hf i hi))
  obtain ⟨hmP, _, _, _, hmO⟩ := hmmF
  have hpart : (runFrom (initAgg roots)
      (L.map (fun f => recOf f.1 f.2))).1.partials = [] := by
    apply eq_nil_of_mlookup_none
    intro k
    rw [hmP k]
    simp only [specPartialsX]
    cases hf : findAnn t k with
    | none => rfl
    | some e =>
      dsimp only
      have he := (findAnn_mem hf).1
      have hd : doneB ((L.map (fun g => g.2.id)).reverse) e.2 = true := by
        simpa using hall e he
      simp [pendX, hd]
  have horphn : (runFrom (initAgg roots)
      (L.map (fun f => recOf f.1 f.2))).1.orphans = [] := by
    apply eq_nil_of_mlookup_none
    intro k
    rw [hmO k]
    simp only [specOrphansX]
    cases hf : findAnn t k with
    | none => rfl
    | some e =>
      dsimp only
      have he := (findAnn_mem hf).1
      have ha : arrivedB ((L.map (fun g => g.2.id)).reverse) e.2 = true := by
        have h1 := doneB_arrived (hall e he)
        simpa using h1
      simp [ha]
  have houtp : (runFrom (initAgg roots)
      (L.map (fun f => recOf f.1 f.2))).2.Perm
      ((ann 0 t).map (fun f => rollupOf f.2)) := by
    have hpt : ∀ f ∈ ann 0 t,
        (doneB ((L.map (fun g => g.2.id)).reverse ++ ([] : List Int)) f.2 &&
          !doneB ([] : List Int) f.2) = true := by
      intro f hf
      rw [hall f hf, doneB_nil]
      simp
    have hfeq : (ann 0 t).filter
        (fun f => doneB ((L.map (fun g => g.2.id)).reverse ++
          ([] : List Int)) f.2 && !doneB ([] : List Int) f.2) = ann 0 t :=
      List.filter_eq_self.mpr hpt
    rw [hfeq] at hpermF
    exact hpermF
  refine ⟨?_, houtp, hpart, horphn⟩
  simp [aggRun, hpart]

/-! ## Claims about the aggregator -/

/-- Claim C1: for every finite tree of dir-completion records consumed by
`Aggregator.Run`, the rollup emitted for each directory satisfies the
recurrences: `total_files` equals the directory's direct file count plus the
sum of `total_files` over its immediate child directories; the analogous
identities hold for `total_size` (direct byte total) and `total_blocks`
(direct block total); and `total_dirs` equals the sum over immediate child
directories of their `total_dirs + 1`. -/
theorem C1_rollup_recurrence {t : DirTree} {roots : List Int}
    {input : List DirResult} {out : List Rollup}
    (hwf : WFtree t) (hroots : RootsOK roots t)
    (hperm : input.Perm (records t))
    (hrun : aggRun roots input = .ok out) :
    ∀ e ∈ ann 0 t,
      (emittedFor out e.2.id).isSome = true ∧
      (∀ c ∈ e.2.children, (emittedFor out c.id).isSome = true) ∧
      ((emittedFor out e.2.id).getD ⟨0, 0, 0, 0, 0⟩).totalSize =
        e.2.fsize + (e.2.children.map (fun c =>
          ((emittedFor out c.id).getD ⟨0, 0, 0, 0, 0⟩).totalSize)).sum ∧
      ((emittedFor out e.2.id).getD ⟨0, 0, 0, 0, 0⟩).totalBlocks =
        e.2.fblocks + (e.2.children.map (fun c =>
          ((emittedFor out c.id).getD ⟨0, 0, 0, 0, 0⟩).totalBlocks)).sum ∧
      ((emittedFor out e.2.id).getD ⟨0, 0, 0, 0, 0⟩).totalFiles =
        e.2.fcount + (e.2.children.map (fun c =>
          ((emittedFor out c.id).getD ⟨0, 0, 0, 0, 0⟩).totalFiles)).sum ∧
      ((emittedFor out e.2.id).getD ⟨0, 0, 0, 0, 0⟩).totalDirs =
        (e.2.children.map (fun c =>
          ((emittedFor out c.id).getD ⟨0, 0, 0, 0, 0⟩).totalDirs + 1)).sum
    := by
  obtain ⟨hnd, h0⟩ := hwf
  simp only [records] at hperm
  rcases perm_map_lift hperm with ⟨L, hLp, rfl⟩
  obtain ⟨hok, hop, _, _⟩ := aggRun_ok hnd h0 hroots hLp
  rw [hrun] at hok
  have hout : out =
      (runFrom (initAgg roots) (L.map (fun f => recOf f.1 f.2))).2 := by
    injection hok
  subst hout
  intro e he
  have hme : emittedFor
      (runFrom (initAgg roots) (L.map (fun f => recOf f.1 f.2))).2 e.2.id =
      some (rollupOf e.2) := emittedFor_eq hnd hop he
  have hch : ∀ c ∈ e.2.children, emittedFor
      (runFrom (initAgg roots) (L.map (fun f => recOf f.1 f.2))).2 c.id =
      some (rollupOf c) :=
    fun c hc => emittedFor_eq hnd hop (child_pair_mem he hc)
  refine ⟨by rw [hme]; rfl, fun c hc => by rw [hch c hc]; rfl,
    ?_, ?_, ?_, ?_⟩
  · rw [hme]
    rw [List.map_congr_left (fun c hc => by rw [hch c hc]; rfl :
      ∀ c ∈ e.2.children, ((emittedFor
        (runFrom (initAgg roots) (L.map (fun f => recOf f.1 f.2))).2
        c.id).getD ⟨0, 0, 0, 0, 0⟩).totalSize = (rollupOf c).totalSize)]
    cases he2 : e.2 with
    | node i a b c cs =>
      simp [rollupOf, DirTree.fsize, DirTree.children, sumSize_eq]
  · rw [hme]
    rw [List.map_congr_left (fun c hc => by rw [hch c hc]; rfl :
      ∀ c ∈ e.2.children, ((emittedFor
        (runFrom (initAgg roots) (L.map (fun f => recOf f.1 f.2))).2
        c.id).getD ⟨0, 0, 0, 0, 0⟩).totalBlocks = (rollupOf c).totalBlocks)]
    cases he2 : e.2 with
    | node i a b c cs =>
      simp [rollupOf, DirTree.fblocks, DirTree.children, sumBlocks_eq]
  · rw [hme]
    rw [List.map_congr_left (fun c hc => by rw [hch c hc]; rfl :
      ∀ c ∈ e.2.children, ((emittedFor
        (runFrom (initAgg roots) (L.map (fun f => recOf f.1 f.2))).2
        c.id).getD ⟨0, 0, 0, 0, 0⟩).totalFiles = (rollupOf c).totalFiles)]
    cases he2 : e.2 with
    | node i a b c cs =>
      simp [rollupOf, DirTree.fcount, DirTree.children, sumFiles_eq]
  · rw [hme]
    rw [List.map_congr_left (fun c hc => by rw [hch c hc]; rfl :
      ∀ c ∈ e.2.children, ((emittedFor
        (runFrom (initAgg roots) (L.map (fun f => recOf f.1 f.2))).2
        c.id).getD ⟨0, 0, 0, 0, 0⟩).totalDirs + 1 =
        (rollupOf c).totalDirs + 1)]
    cases he2 : e.2 with
    | node i a b c cs =>
      simp [rollupOf, DirTree.children, sumDirs_eq]

/-- Claim C2: feeding `Aggregator.Run` two orderings of the same finite set
of dir-completion records for a well-formed tree (in particular child-first
orders that exercise the orphan bucket and parent-first orders that do not)
succeeds both times and produces the same final set of rollups. -/
theorem C2_order_invariance {t : DirTree} {roots : List Int}
    {input1 input2 : List DirResult}
    (hwf : WFtree t) (hroots : RootsOK roots t)
    (h1 : input1.Perm (records t)) (h2 : input2.Perm (records t)) :
    ∃ out1 out2, aggRun roots input1 = .ok out1 ∧
      aggRun roots input2 = .ok out2 ∧ out1.Perm out2 := by
  obtain ⟨hnd, h0⟩ := hwf
  simp only [records] at h1 h2
  rcases perm_map_lift h1 with ⟨L1, hL1, rfl⟩
  rcases perm_map_lift h2 with ⟨L2, hL2, rfl⟩
  obtain ⟨hok1, hop1, _, _⟩ := aggRun_ok hnd h0 hroots hL1
  obtain ⟨hok2, hop2, _, _⟩ := aggRun_ok hnd h0 hroots hL2
  exact ⟨_, _, hok1, hok2, hop1.trans hop2.symm⟩

/-- Claim C3: `Aggregator.Run` fails with the "incomplete aggregation" error
exactly when its input closes while the pending map is non-empty; and on a
clean scan (one record per directory of a well-formed tree, in any order) it
succeeds and both the pending map and the orphan map are empty at close. -/
theorem C3_incomplete_iff {roots : List Int} {input : List DirResult} :
    ((∃ msg, aggRun roots input = .error msg) ↔
      (runFrom (initAgg roots) input).1.partials ≠ []) ∧
    (∀ t : DirTree, WFtree t → RootsOK roots t →
      input.Perm (records t) →
      ∃ out, aggRun roots input = .ok out ∧
        (runFrom (initAgg roots) input).1.partials = [] ∧
        (runFrom (initAgg roots) input).1.orphans = []) := by
  constructor
  · constructor
    · rintro ⟨msg, hmsg⟩ hnil
      simp [aggRun, hnil] at hmsg
    · intro hne
      have hlen : (runFrom (initAgg roots) input).1.partials.length > 0 :=
        Nat.pos_of_ne_zero
          (fun h => hne (List.eq_nil_of_length_eq_zero h))
      refine ⟨"rollup aggregator incomplete: " ++
        toString (runFrom (initAgg roots) input).1.partials.length ++
        " directories pending", ?_⟩
      simp only [aggRun]
      rw [if_pos hlen]
  · intro t hwf hroots hperm
    obtain ⟨hnd, h0⟩ := hwf
    simp only [records] at hperm
    rcases perm_map_lift hperm with ⟨L, hL, rfl⟩
    obtain ⟨hok, _, hpart, horph⟩ := aggRun_ok hnd h0 hroots hL
    exact ⟨_, hok, hpart, horph⟩

/-! ## Concrete instances for the claims (the repository's own unit-test
tree: root 1 with children 2 and 3) -/

def t0 : DirTree :=
  .node 1 10 10 1 [.node 2 5 5 1 [], .node 3 0 0 0 []]

def input0 : List DirResult :=
  [⟨1, 0, 10, 10, 1, 2⟩, ⟨2, 1, 5, 5, 1, 0⟩, ⟨3, 1, 0, 0, 0, 0⟩]

/-- The same records, children first (exercises the orphan bucket). -/
def input0r : List DirResult :=
  [⟨3, 1, 0, 0, 0, 0⟩, ⟨2, 1, 5, 5, 1, 0⟩, ⟨1, 0, 10, 10, 1, 2⟩]

def out0 : List Rollup :=
  [⟨2, 5, 5, 1, 0⟩, ⟨3, 0, 0, 0, 0⟩, ⟨1, 15, 15, 2, 2⟩]

/-- Witness for C1 at the three-node test tree. -/
theorem C1_rollup_recurrence_witness :
    WFtree t0 ∧ RootsOK [1] t0 ∧ input0.Perm (records t0) ∧
    aggRun [1] input0 = .ok out0 ∧
    (∀ e ∈ ann 0 t0,
      (emittedFor out0 e.2.id).isSome = true ∧
      (∀ c ∈ e.2.children, (emittedFor out0 c.id).isSome = true) ∧
      ((emittedFor out0 e.2.id).getD ⟨0, 0, 0, 0, 0⟩).totalSize =
        e.2.fsize + (e.2.children.map (fun c =>
          ((emittedFor out0 c.id).getD ⟨0, 0, 0, 0, 0⟩).totalSize)).sum ∧
      ((emittedFor out0 e.2.id).getD ⟨0, 0, 0, 0, 0⟩).totalBlocks =
        e.2.fblocks + (e.2.children.map (fun c =>
          ((emittedFor out0 c.id).getD ⟨0, 0, 0, 0, 0⟩).totalBlocks)).sum ∧
      ((emittedFor out0 e.2.id).getD ⟨0, 0, 0, 0, 0⟩).totalFiles =
        e.2.fcount + (e.2.children.map (fun c =>
          ((emittedFor out0 c.id).getD ⟨0, 0, 0, 0, 0⟩).totalFiles)).sum ∧
      ((emittedFor out0 e.2.id).getD ⟨0, 0, 0, 0, 0⟩).totalDirs =
        (e.2.children.map (fun c =>
          ((emittedFor out0 c.id).getD ⟨0, 0, 0, 0, 0⟩).totalDirs + 1)).sum)
    := by
  have hwf0 : WFtree t0 := ⟨by decide, by decide⟩
  have hroots0 : RootsOK [1] t0 := by
    show ∀ e ∈ ann 0 t0, e.2.id ∈ [1] → e.1 = 0
    decide
  have hperm0 : input0.Perm (records t0) := by decide
  have hrun0 : aggRun [1] input0 = .ok out0 := by
    simp [aggRun, runFrom, handleResult, markComplete, initAgg, minsert,
      merase, mlookup, memI, addChildRollup, addOrphan, input0, out0]
  exact ⟨hwf0, hroots0, hperm0, hrun0,
    C1_rollup_recurrence hwf0 hroots0 hperm0 hrun0⟩

/-- Witness for C2: parent-first and child-first orders of the test tree's
records. -/
theorem C2_order_invariance_witness :
    WFtree t0 ∧ RootsOK [1] t0 ∧ input0.Perm (records t0) ∧
    input0r.Perm (records t0) ∧
    (∃ out1 out2, aggRun [1] input0 = .ok out1 ∧
      aggRun [1] input0r = .ok out2 ∧ out1.Perm out2) := by
  have hwf0 : WFtree t0 := ⟨by decide, by decide⟩
  have hroots0 : RootsOK [1] t0 := by
    show ∀ e ∈ ann 0 t0, e.2.id ∈ [1] → e.1 = 0
    decide
  have hperm0 : input0.Perm (records t0) := by decide
  have hperm0r : input0r.Perm (records t0) := by decide
  exact ⟨hwf0, hroots0, hperm0, hperm0r,
    C2_order_invariance hwf0 hroots0 hperm0 hperm0r⟩

/-- Witness for C3: a clean scan of the test tree closes with empty pending
and orphan maps and succeeds. -/
theorem C3_incomplete_iff_witness :
    WFtree t0 ∧ input0.Perm (records t0) ∧
    (∃ out, aggRun [1] input0 = .ok out ∧
      (runFrom (initAgg [1]) input0).1.partials = [] ∧
      (runFrom (initAgg [1]) input0).1.orphans = []) := by
  have hwf0 : WFtree t0 := ⟨by decide, by decide⟩
  have hroots0 : RootsOK [1] t0 := by
    show ∀ e ∈ ann 0 t0, e.2.id ∈ [1] → e.1 = 0
    decide
  have hperm0 : input0.Perm (records t0) := by decide
  exact ⟨hwf0, hperm0,
    (C3_incomplete_iff).2 t0 hwf0 hroots0 hperm0⟩

/-! ## Filesystem entry records (`internal/entry/entry.go`)

`Kind` is a `uint8` enum; `time.Time`, `uint64` fields are carried as `Int`
(only equality/arithmetic on them matters to the embedded logic). -/

def KindFile : Int := 0
def KindDir : Int := 1
def KindSymlink : Int := 2
def KindOther : Int := 3

structure Entry where
  parentID : Int
  name : String
  kind : Int
  size : Int
  blocks : Int
  modTime : Int
  devID : Int
  inode : Int
  deriving Repr, DecidableEq

structure Dir where
  id : Int
  path : String
  name : String
  parentID : Int
  depth : Int
  deriving Repr, DecidableEq

structure ScanError where
  path : String
  message : String
  deriving Repr, DecidableEq

/-! ## The ingester (`db.Ingester`)

The `select` loop of `Ingester.Run` is modelled as a fold over an event list
(one event per received value or ticker fire); SQL batch inserts become
appends to `persisted*` lists and `cancelFunc()` sets the `cancelled` flag.
The per-batch-flush error paths (SQL failures) are not modelled. -/

def maxErrorsSampled : Int := 1000

structure Progress where
  files : Int
  dirs : Int
  errors : Int
  totalBytes : Int
  deriving Repr, DecidableEq

structure IngState where
  batchSize : Int
  maxErrors : Int
  entryBatch : List Entry
  dirBatch : List Dir
  rollupBatch : List Rollup
  errorBatch : List ScanError
  errorCount : Int
  errorCapped : Bool
  fileCount : Int
  dirCount : Int
  totalBytes : Int
  persistedEntries : List Entry
  persistedDirs : List Dir
  persistedRollups : List Rollup
  persistedErrors : List ScanError
  cancelled : Bool
  deriving Repr, DecidableEq

inductive IngEvent where
  | entry (e : Entry)
  | dir (d : Dir)
  | rollup (r : Rollup)
  | err (s : ScanError)
  | tick
  deriving Repr, DecidableEq

def flushEntries (σ : IngState) : IngState :=
  { σ with persistedEntries := σ.persistedEntries ++ σ.entryBatch
           entryBatch := [] }

def flushDirs (σ : IngState) : IngState :=
  { σ with persistedDirs := σ.persistedDirs ++ σ.dirBatch
           dirBatch := [] }

def flushRollups (σ : IngState) : IngState :=
  { σ with persistedRollups := σ.persistedRollups ++ σ.rollupBatch
           rollupBatch := [] }

def flushErrors (σ : IngState) : IngState :=
  { σ with persistedErrors := σ.persistedErrors ++ σ.errorBatch
           errorBatch := [] }

/-- `Ingester.flush`: dirs, entries, rollups, then errors. -/
def flushAll (σ : IngState) : IngState :=
  flushErrors (flushRollups (flushEntries (flushDirs σ)))

/-- One iteration of the `select` loop of `Ingester.Run`. -/
def ingStep (σ : IngState) (ev : IngEvent) : IngState :=
  match ev with
  | .entry e =>
    let σ1 :=
      if e.kind == KindFile then
        { σ with fileCount := σ.fileCount + 1
                 totalBytes := σ.totalBytes + e.blocks }
      else σ
    let σ2 := { σ1 with entryBatch := σ1.entryBatch ++ [e] }
    if σ2.batchSize ≤ (σ2.entryBatch.length : Int) then flushEntries σ2
    else σ2
  | .dir d =>
    let σ1 := { σ with dirCount := σ.dirCount + 1 }
    let σ2 := { σ1 with dirBatch := σ1.dirBatch ++ [d] }
    if σ2.batchSize ≤ (σ2.dirBatch.length : Int) then flushDirs σ2 else σ2
  | .rollup r =>
    let σ2 := { σ with rollupBatch := σ.rollupBatch ++ [r] }
    if σ2.batchSize ≤ (σ2.rollupBatch.length : Int) then flushRollups σ2
    else σ2
  | .err s =>
    let σ1 := { σ with errorCount := σ.errorCount + 1 }
    let σ2 :=
      if (0 : Int) < σ1.maxErrors ∧ σ1.maxErrors ≤ σ1.errorCount then
        { σ1 with cancelled := true }
      else σ1
    if σ2.errorCapped then σ2
    else
      let σ3 := { σ2 with errorBatch := σ2.errorBatch ++ [s] }
      if maxErrorsSampled ≤ (σ3.errorBatch.length : Int) then
        flushErrors { σ3 with errorCapped := true }
      else σ3
  | .tick => flushAll σ

def initIng (batchSize maxErrors : Int) : IngState :=
  { batchSize := batchSize, maxErrors := maxErrors, entryBatch := [],
    dirBatch := [], rollupBatch := [], errorBatch := [], errorCount := 0,
    errorCapped := false, fileCount := 0, dirCount := 0, totalBytes := 0,
    persistedEntries := [], persistedDirs := [], persistedRollups := [],
    persistedErrors := [], cancelled := false }

/-- `Ingester.Run` on a closed stream: the loop, then the terminal flush. -/
def ingRun (σ : IngState) (evs : List IngEvent) : IngState :=
  flushAll (evs.foldl ingStep σ)

def countErrs : List IngEvent → Int
  | [] => 0
  | .err _ :: rest => countErrs rest + 1
  | _ :: rest => countErrs rest

/-- `Ingester.Progress`. -/
def progressOf (σ : IngState) : Progress :=
  ⟨σ.fileCount, σ.dirCount, σ.errorCount, σ.totalBytes⟩

/-! ## Timestamps (`time.Now().Format("20060102-150405")`)

`time.Now()` carries the local zone; `Format` renders the wall-clock in that
zone, i.e. of `unixSec + offsetSec`.  The civil-calendar conversion is the
standard days-to-date algorithm, valid for all times the snapshot naming can
see. -/

structure GoTime where
  unixSec : Int
  offsetSec : Int
  deriving Repr, DecidableEq

/-- Days since 1970-01-01 to (year, month, day), proleptic Gregorian. -/
def civilFromDays (z : Int) : Int × Int × Int :=
  let z' := z + 719468
  let era := (if 0 ≤ z' then z' else z' - 146096) / 146097
  let doe := z' - era * 146097
  let yoe := (doe - doe / 1460 + doe / 36524 - doe / 146096) / 365
  let y := yoe + era * 400
  let doy := doe - (365 * yoe + yoe / 4 - yoe / 100)
  let mp := (5 * doy + 2) / 153
  let d := doy - (153 * mp + 2) / 5 + 1
  let m := mp + (if mp < 10 then 3 else -9)
  (y + (if m ≤ 2 then 1 else 0), m, d)

def pad2 (n : Int) : String :=
  if n < 10 then "0" ++ toString n else toString n

def pad4 (n : Int) : String :=
  if n < 10 then "000" ++ toString n
  else if n < 100 then "00" ++ toString n
  else if n < 1000 then "0" ++ toString n
  else toString n

/-- Go's `Format("20060102-150405")` of the wall clock `t` renders. -/
def goFormatTS (t : GoTime) : String :=
  let loc := t.unixSec + t.offsetSec
  let days := (loc - (loc % 86400 + 86400) % 86400) / 86400
  let sod := (loc % 86400 + 86400) % 86400
  let ymd := civilFromDays days
  let hh := sod / 3600
  let mm := (sod % 3600) / 60
  let ss := sod % 60
  pad4 ymd.1 ++ pad2 ymd.2.1 ++ pad2 ymd.2.2 ++ "-" ++
    pad2 hh ++ pad2 mm ++ pad2 ss

def snapshotName (t : GoTime) : String := "dug-" ++ goFormatTS t ++ ".db"

/-! ## The snapshot manager (`snapshot.Manager.RunScan`)

Each fallible step's outcome is an oracle bit in `RunEnv`; filesystem calls
of the symlink-refresh phase are logged as `FsAction`s.  `filepath.Join` is
modelled as `dir ++ "/" ++ name`. -/

def pjoin (dir name : String) : String := dir ++ "/" ++ name

def tempDBName (nano : Int) : String :=
  ".dug-temp-" ++ toString nano ++ ".db"

inductive FsAction where
  | remove (path : String)
  | symlink (target link : String)
  | rename (src dst : String)
  deriving Repr, DecidableEq

structure RunEnv where
  outputDir : String
  mkdirOK : Bool
  lockOK : Bool
  openOK : Bool
  initSchemaOK : Bool
  pragmasOK : Bool
  scanOK : Bool
  indexMode : String
  indexPragmasOK : Bool
  buildIndexesOK : Bool
  finalizeOK : Bool
  renameOK : Bool
  symlinkCreateOK : Bool
  symlinkRenameOK : Bool
  pruneOK : Bool
  now : GoTime
  nowNano : Int
  deriving Repr, DecidableEq

structure RunOutcome where
  result : Except String String
  lockAcquired : Bool
  lockReleased : Bool
  tempRemoved : Bool
  dbClosed : Bool
  renamedTo : Option String
  actions : List FsAction
  warnings : List String
  deriving Repr

/-- `Manager.RunScan` as a straight-line function of its step outcomes.  The
deferred `releaseLock` fires on every exit after the lock is held; every
abort after the temporary store exists removes it; the symlink refresh and
the pruning only warn on failure. -/
def runScan (env : RunEnv) : RunOutcome :=
  if !env.mkdirOK then
    { result := .error "failed to create output directory",
      lockAcquired := false, lockReleased := false, tempRemoved := false,
      dbClosed := false, renamedTo := none, actions := [], warnings := [] }
  else if !env.lockOK then
    { result := .error "failed to acquire lock",
      lockAcquired := false, lockReleased := false, tempRemoved := false,
      dbClosed := false, renamedTo := none, actions := [], warnings := [] }
  else if !env.openOK then
    { result := .error "failed to create database",
      lockAcquired := true, lockReleased := true, tempRemoved := true,
      dbClosed := false, renamedTo := none, actions := [], warnings := [] }
  else if !env.initSchemaOK then
    { result := .error "failed to initialize schema",
      lockAcquired := true, lockReleased := true, tempRemoved := true,
      dbClosed := true, renamedTo := none, actions := [], warnings := [] }
  else if !env.pragmasOK then
    { result := .error "failed to apply pragmas",
      lockAcquired := true, lockReleased := true, tempRemoved := true,
      dbClosed := true, renamedTo := none, actions := [], warnings := [] }
  else if !env.scanOK then
    { result := .error "scan failed",
      lockAcquired := true, lockReleased := true, tempRemoved := true,
      dbClosed := true, renamedTo := none, actions := [], warnings := [] }
  else
    let mode := if env.indexMode == "" then "memory" else env.indexMode
    if mode != "skip" && !env.indexPragmasOK then
      { result := .error "failed to apply index pragmas",
        lockAcquired := true, lockReleased := true, tempRemoved := true,
        dbClosed := true, renamedTo := none, actions := [], warnings := [] }
    else if mode != "skip" && !env.buildIndexesOK then
      { result := .error "failed to build indexes",
        lockAcquired := true, lockReleased := true, tempRemoved := true,
        dbClosed := true, renamedTo := none, actions := [], warnings := [] }
    else if !env.finalizeOK then
      { result := .error "failed to finalize database",
        lockAcquired := true, lockReleased := true, tempRemoved := true,
        dbClosed := true, renamedTo := none, actions := [], warnings := [] }
    else
      let finalName := snapshotName env.now
      let finalPath := pjoin env.outputDir finalName
      if !env.renameOK then
        { result := .error "failed to rename database",
          lockAcquired := true, lockReleased := true, tempRemoved := true,
          dbClosed := true, renamedTo := none, actions := [], warnings := [] }
      else
        let latestPath := pjoin env.outputDir "latest.db"
        let tempLink := pjoin env.outputDir ".latest.db.tmp"
        let slActions := FsAction.remove tempLink ::
          (if env.symlinkCreateOK then
            FsAction.symlink finalName tempLink ::
            (if env.symlinkRenameOK then [FsAction.rename tempLink latestPath]
             else [FsAction.remove tempLink])
           else [])
        let slWarnings :=
          if env.symlinkCreateOK then
            (if env.symlinkRenameOK then []
             else ["warning: failed to update latest.db symlink"])
          else ["warning: failed to create latest.db symlink"]
        let prWarnings :=
          if env.pruneOK then []
          else ["warning: failed to prune old snapshots"]
        { result := .ok finalPath,
          lockAcquired := true, lockReleased := true, tempRemoved := false,
          dbClosed := true, renamedTo := some finalPath,
          actions := slActions, warnings := slWarnings ++ prWarnings }

/-! ## The walker's readdir-failure branch (`scan.Worker.ProcessDirectory`)

On a `ReadDir` error the worker does a non-blocking send of one error record
(the `default:` arm drops it when the channel is full) and then emits a
dir-completion with zero direct totals and zero expected children;
cancellation is not modelled. -/

def readdirFailure (errChFree : Bool) (dirID parentID : Int)
    (path msg : String) : List ScanError × DirResult :=
  ( if errChFree then [⟨path, msg⟩] else []
  , ⟨dirID, parentID, 0, 0, 0, 0⟩ )

/-! ## Root seeding and directory-id assignment -/

/-- Modelled from the spec: the current `Scanner.Run` (not present in the
source tree; only an older string-keyed revision is) seeds the root's
directory row with id 1, parent id 0, depth 0 before the pipeline starts. -/
def seedRoot (rootPath rootName : String) : Dir :=
  ⟨1, rootPath, rootName, 0, 0⟩

/-- Modelled from the spec: each discovered subdirectory takes the next value
of the process-wide id counter (the root holds 1) and the discovering
directory's id as parent.  A discovery names the index of its parent row plus
path, name and depth. -/
def buildDirs : List Dir → Int → List (Nat × String × String × Int) →
    List Dir
  | rows, _, [] => rows
  | rows, seq, (pidx, path, name, depth) :: rest =>
    let parent := rows.getD pidx ⟨1, "", "", 0, 0⟩
    buildDirs (rows ++ [⟨seq + 1, path, name, parent.id, depth⟩])
      (seq + 1) rest

/-! ## Ingester lemmas -/

theorem ingStep_maxErrors (σ : IngState) (ev : IngEvent) :
    (ingStep σ ev).maxErrors = σ.maxErrors := by
  cases ev <;>
    simp only [ingStep, flushAll, flushErrors, flushRollups, flushEntries,
      flushDirs] <;>
    (repeat' split) <;> rfl

theorem ingStep_cancelled_mono (σ : IngState) (ev : IngEvent)
    (h : σ.cancelled = true) : (ingStep σ ev).cancelled = true := by
  cases ev <;>
    simp only [ingStep, flushAll, flushErrors, flushRollups, flushEntries,
      flushDirs] <;>
    (repeat' split) <;> (first | rfl | exact h)

theorem foldl_cancelled_mono (evs : List IngEvent) : ∀ σ : IngState,
    σ.cancelled = true → (evs.foldl ingStep σ).cancelled = true := by
  induction evs with
  | nil => intro σ h; exact h
  | cons ev evs' ih =>
    intro σ h
    simp only [List.foldl_cons]
    exact ih _ (ingStep_cancelled_mono σ ev h)

theorem flushAll_cancelled (σ : IngState) :
    (flushAll σ).cancelled = σ.cancelled := rfl

theorem ingStep_entry_counts (σ : IngState) (e : Entry) :
    (ingStep σ (.entry e)).errorCount = σ.errorCount ∧
    (ingStep σ (.entry e)).cancelled = σ.cancelled := by
  simp only [ingStep, flushEntries]
  (repeat' split) <;> exact ⟨rfl, rfl⟩

theorem ingStep_dir_counts (σ : IngState) (d : Dir) :
    (ingStep σ (.dir d)).errorCount = σ.errorCount ∧
    (ingStep σ (.dir d)).cancelled = σ.cancelled := by
  simp only [ingStep, flushDirs]
  (repeat' split) <;> exact ⟨rfl, rfl⟩

theorem ingStep_rollup_counts (σ : IngState) (r : Rollup) :
    (ingStep σ (.rollup r)).errorCount = σ.errorCount ∧
    (ingStep σ (.rollup r)).cancelled = σ.cancelled := by
  simp only [ingStep, flushRollups]
  (repeat' split) <;> exact ⟨rfl, rfl⟩

theorem ingStep_tick_counts (σ : IngState) :
    (ingStep σ .tick).errorCount = σ.errorCount ∧
    (ingStep σ .tick).cancelled = σ.cancelled := by
  exact ⟨rfl, rfl⟩

theorem ingStep_err_count (σ : IngState) (s : ScanError) :
    (ingStep σ (.err s)).errorCount = σ.errorCount + 1 := by
  simp only [ingStep, flushErrors]
  (repeat' split) <;> rfl

theorem ingStep_err_cancels (σ : IngState) (s : ScanError)
    (h : 0 < σ.maxErrors ∧ σ.maxErrors ≤ σ.errorCount + 1) :
    (ingStep σ (.err s)).cancelled = true := by
  simp only [ingStep, flushErrors]
  rw [if_pos h]
  (repeat' split) <;> rfl

theorem ingStep_err_no_cancel (σ : IngState) (s : ScanError)
    (h : ¬(0 < σ.maxErrors ∧ σ.maxErrors ≤ σ.errorCount + 1)) :
    (ingStep σ (.err s)).cancelled = σ.cancelled := by
  simp only [ingStep, flushErrors]
  rw [if_neg h]
  (repeat' split) <;> rfl

/-- Reaching the `maxErrors` threshold fires the cancellation. -/
theorem ing_cancels (evs : List IngEvent) : ∀ σ : IngState,
    0 < σ.maxErrors → σ.errorCount < σ.maxErrors →
    σ.maxErrors ≤ σ.errorCount + countErrs evs →
    (evs.foldl ingStep σ).cancelled = true := by
  induction evs with
  | nil =>
    intro σ h1 h2 h3
    exfalso
    simp only [countErrs] at h3
    omega
  | cons ev evs' ih =>
    intro σ h1 h2 h3
    simp only [List.foldl_cons]
    cases ev with
    | err s =>
      by_cases hth : σ.maxErrors ≤ σ.errorCount + 1
      · exact foldl_cancelled_mono evs' _ (ingStep_err_cancels σ s ⟨h1, hth⟩)
      · apply ih
        · rw [ingStep_maxErrors]
          exact h1
        · rw [ingStep_maxErrors, ingStep_err_count]
          omega
        · rw [ingStep_maxErrors, ingStep_err_count]
          simp only [countErrs] at h3
          omega
    | entry e =>
      apply ih
      · rw [ingStep_maxErrors]; exact h1
      · rw [ingStep_maxErrors, (ingStep_entry_counts σ e).1]; exact h2
      · rw [ingStep_maxErrors, (ingStep_entry_counts σ e).1]
        simp only [countErrs] at h3
        exact h3
    | dir d =>
      apply ih
      · rw [ingStep_maxErrors]; exact h1
      · rw [ingStep_maxErrors, (ingStep_dir_counts σ d).1]; exact h2
      · rw [ingStep_maxErrors, (ingStep_dir_counts σ d).1]
        simp only [countErrs] at h3
        exact h3
    | rollup r =>
      apply ih
      · rw [ingStep_maxErrors]; exact h1
      · rw [ingStep_maxErrors, (ingStep_rollup_counts σ r).1]; exact h2
      · rw [ingStep_maxErrors, (ingStep_rollup_counts σ r).1]
        simp only [countErrs] at h3
        exact h3
    | tick =>
      apply ih
      · rw [ingStep_maxErrors]; exact h1
      · rw [ingStep_maxErrors, (ingStep_tick_counts σ).1]; exact h2
      · rw [ingStep_maxErrors, (ingStep_tick_counts σ).1]
        simp only [countErrs] at h3
        exact h3

theorem ingStep_err_plain (σ : IngState) (s : ScanError)
    (hmax : σ.maxErrors ≤ 0) (hcap : σ.errorCapped = false)
    (hlen : (σ.errorBatch.length : Int) + 1 < maxErrorsSampled) :
    ingStep σ (.err s) =
      { σ with errorCount := σ.errorCount + 1
               errorBatch := σ.errorBatch ++ [s] } := by
  simp only [ingStep]
  split
  next hcond => exact absurd hcond.1 (by omega)
  next =>
    split
    next hcapT => rw [hcap] at hcapT; exact absurd hcapT (by simp)
    next =>
      split
      next hlenT =>
        exfalso
        simp only [List.length_append, List.length_cons,
          List.length_nil] at hlenT
        simp only [maxErrorsSampled] at hlenT hlen
        push_cast at hlenT hlen
        omega
      next => rfl

theorem ingStep_err_cap (σ : IngState) (s : ScanError)
    (hmax : σ.maxErrors ≤ 0) (hcap : σ.errorCapped = false)
    (hlen : (σ.errorBatch.length : Int) + 1 = maxErrorsSampled) :
    ingStep σ (.err s) =
      { σ with errorCount := σ.errorCount + 1
               errorCapped := true
               errorBatch := []
               persistedErrors :=
                 σ.persistedErrors ++ (σ.errorBatch ++ [s]) } := by
  simp only [ingStep]
  split
  next hcond => exact absurd hcond.1 (by omega)
  next =>
    split
    next hcapT => rw [hcap] at hcapT; exact absurd hcapT (by simp)
    next =>
      split
      next => rfl
      next hlenF =>
        exfalso
        simp only [List.length_append, List.length_cons,
          List.length_nil] at hlenF
        simp only [maxErrorsSampled] at hlenF hlen
        omega

theorem errs_fill (s : ScanError) : ∀ (n : Nat) (σ : IngState),
    σ.maxErrors ≤ 0 → σ.errorCapped = false →
    (σ.errorBatch.length : Int) + n < maxErrorsSampled →
    (List.replicate n (IngEvent.err s)).foldl ingStep σ =
      { σ with errorCount := σ.errorCount + n
               errorBatch := σ.errorBatch ++ List.replicate n s } := by
  intro n
  induction n with
  | zero =>
    intro σ h1 h2 h3
    simp
  | succ n ih =>
    intro σ h1 h2 h3
    rw [List.replicate_succ, List.foldl_cons]
    rw [ingStep_err_plain σ s h1 h2 (by push_cast at h3 ⊢; omega)]
    rw [ih { σ with errorCount := σ.errorCount + 1
                    errorBatch := σ.errorBatch ++ [s] }
      (by exact h1) (by exact h2) (by
        simp only [List.length_append, List.length_cons, List.length_nil]
        push_cast at h3 ⊢
        omega)]
    congr 1
    · simp [List.append_assoc, List.singleton_append, List.replicate_succ]
    · push_cast
      ring

set_option maxRecDepth 8000 in
/-- Claim C4 (code bug): the spec's "only the first 1000 error records are
persisted" is violated.  A ticker flush clears `errorBatch` without setting
`errorCapped`, so after one error and one timed flush, 1000 further errors
refill the batch to the cap and 1001 error records in total reach the
`scan_errors` store. -/
theorem C4_error_sampling_bug :
    (ingRun (initIng 100000 0)
      (.err ⟨"/p0", "m0"⟩ :: .tick ::
        List.replicate 1000 (.err ⟨"/p", "m"⟩))).persistedErrors.length
      = 1001 := by
  rw [ingRun]
  rw [show (IngEvent.err ⟨"/p0", "m0"⟩ :: IngEvent.tick ::
      List.replicate 1000 (IngEvent.err ⟨"/p", "m"⟩)) =
      [IngEvent.err ⟨"/p0", "m0"⟩, IngEvent.tick] ++
      List.replicate 1000 (IngEvent.err ⟨"/p", "m"⟩) from rfl]
  rw [List.foldl_append]
  have h2 : ([IngEvent.err ⟨"/p0", "m0"⟩, IngEvent.tick].foldl ingStep
      (initIng 100000 0)) =
      { initIng 100000 0 with
        errorCount := 1
        persistedErrors := [⟨"/p0", "m0"⟩] } := by
    rfl
  rw [h2]
  rw [show (1000 : Nat) = 999 + 1 from rfl, List.replicate_succ']
  rw [List.foldl_append]
  have h3 : (List.replicate 999 (IngEvent.err ⟨"/p", "m"⟩)).foldl ingStep
      { initIng 100000 0 with
        errorCount := 1
        persistedErrors := [⟨"/p0", "m0"⟩] } =
      { initIng 100000 0 with
        errorCount := 1000
        errorBatch := List.replicate 999 ⟨"/p", "m"⟩
        persistedErrors := [⟨"/p0", "m0"⟩] } := by
    rw [errs_fill ⟨"/p", "m"⟩ 999
      { initIng 100000 0 with
        errorCount := 1
        persistedErrors := [⟨"/p0", "m0"⟩] }
      (by decide) (by decide) (by decide)]
    rfl
  rw [h3]
  have h4 : ingStep
      { initIng 100000 0 with
        errorCount := 1000
        errorBatch := List.replicate 999 ⟨"/p", "m"⟩
        persistedErrors := [⟨"/p0", "m0"⟩] } (.err ⟨"/p", "m"⟩) =
      { initIng 100000 0 with
        errorCount := 1001
        errorCapped := true
        errorBatch := []
        persistedErrors := [⟨"/p0", "m0"⟩] ++
          (List.replicate 999 ⟨"/p", "m"⟩ ++ [⟨"/p", "m"⟩]) } := by
    rw [ingStep_err_cap
      { initIng 100000 0 with
        errorCount := 1000
        errorBatch := List.replicate 999 ⟨"/p", "m"⟩
        persistedErrors := [⟨"/p0", "m0"⟩] } ⟨"/p", "m"⟩
      (by decide) (by decide) (by decide)]
    rfl
  simp only [List.foldl_cons, List.foldl_nil]
  rw [h4]
  simp [flushAll, flushErrors, flushRollups, flushEntries, flushDirs]

/-- Claim C10: the progress counters move only as the source does: a file
entry bumps `Files` and adds its `Blocks` (disk bytes, not apparent `Size`)
to `TotalBytes`; symlink and "other" entries change neither; every directory
record bumps `Dirs` by one. -/
theorem C10_progress_counters (σ : IngState) :
    (∀ e : Entry, e.kind = KindFile →
      progressOf (ingStep σ (.entry e)) =
        ⟨σ.fileCount + 1, σ.dirCount, σ.errorCount,
         σ.totalBytes + e.blocks⟩) ∧
    (∀ e : Entry, e.kind = KindSymlink ∨ e.kind = KindOther →
      progressOf (ingStep σ (.entry e)) = progressOf σ) ∧
    (∀ d : Dir, progressOf (ingStep σ (.dir d)) =
      ⟨σ.fileCount, σ.dirCount + 1, σ.errorCount, σ.totalBytes⟩) := by
  refine ⟨?_, ?_, ?_⟩
  · intro e hk
    have hk' : (e.kind == KindFile) = true := by simp [hk]
    simp only [ingStep, hk', if_true]
    split <;> simp [flushEntries, progressOf]
  · intro e hk
    have hk' : (e.kind == KindFile) = false := by
      rcases hk with h | h <;>
        simp [h, KindSymlink, KindOther, KindFile]
    simp only [ingStep, hk', Bool.false_eq_true, if_false]
    split <;> simp [flushEntries, progressOf]
  · intro d
    simp only [ingStep]
    split <;> simp [flushDirs, progressOf]

/-- Witness for C10 at a concrete state and entries. -/
theorem C10_progress_counters_witness :
    progressOf (ingStep (initIng 10 0)
      (.entry ⟨1, "a", KindFile, 7, 3, 0, 0, 0⟩)) =
      ⟨(initIng 10 0).fileCount + 1, (initIng 10 0).dirCount,
       (initIng 10 0).errorCount, (initIng 10 0).totalBytes + 3⟩ ∧
    progressOf (ingStep (initIng 10 0)
      (.entry ⟨1, "l", KindSymlink, 7, 3, 0, 0, 0⟩)) =
      progressOf (initIng 10 0) ∧
    progressOf (ingStep (initIng 10 0) (.dir ⟨2, "/r/d", "d", 1, 1⟩)) =
      ⟨(initIng 10 0).fileCount, (initIng 10 0).dirCount + 1,
       (initIng 10 0).errorCount, (initIng 10 0).totalBytes⟩ :=
  ⟨(C10_progress_counters (initIng 10 0)).1 ⟨1, "a", KindFile, 7, 3, 0, 0, 0⟩
      rfl,
   (C10_progress_counters (initIng 10 0)).2.1 ⟨1, "l", KindSymlink, 7, 3, 0,
      0, 0⟩ (Or.inl rfl),
   (C10_progress_counters (initIng 10 0)).2.2 ⟨2, "/r/d", "d", 1, 1⟩⟩

/-- Claim C5: with `max_errors = K > 0`, the ingester fires the pipeline
cancellation as soon as the running error count reaches `K`; and a failed
scan makes `RunScan` close and remove the temporary store, release the lock,
and return the error, publishing no snapshot. -/
theorem C5_max_errors_cancel {batch K : Int} (hK : 0 < K)
    {evs : List IngEvent} (hcount : K ≤ countErrs evs) :
    (evs.foldl ingStep (initIng batch K)).cancelled = true ∧
    (ingRun (initIng batch K) evs).cancelled = true ∧
    (∀ env : RunEnv, env.mkdirOK = true → env.lockOK = true →
      env.openOK = true → env.initSchemaOK = true → env.pragmasOK = true →
      env.scanOK = false →
      (runScan env).result = .error "scan failed" ∧
      (runScan env).tempRemoved = true ∧
      (runScan env).lockReleased = true ∧
      (runScan env).renamedTo = none) := by
  have hc : (evs.foldl ingStep (initIng batch K)).cancelled = true := by
    apply ing_cancels
    · exact hK
    · show (0 : Int) < K
      exact hK
    · show K ≤ 0 + countErrs evs
      omega
  refine ⟨hc, by rw [ingRun, flushAll_cancelled]; exact hc, ?_⟩
  intro env h1 h2 h3 h4 h5 h6
  simp [runScan, h1, h2, h3, h4, h5, h6]

/-- Witness for C5: two errors with `max_errors = 2` cancel, and a concrete
failing-scan environment aborts cleanly. -/
theorem C5_max_errors_cancel_witness :
    (0 : Int) < 2 ∧
    (2 : Int) ≤ countErrs [.err ⟨"/a", "x"⟩, .err ⟨"/b", "y"⟩] ∧
    (([.err ⟨"/a", "x"⟩, .err ⟨"/b", "y"⟩] :
        List IngEvent).foldl ingStep (initIng 10 2)).cancelled = true :=
  ⟨by decide, by decide,
   (C5_max_errors_cancel (by decide) (by decide)).1⟩

/-- An all-success environment with clock `now`, pruning outcome `pr`. -/
def envOK (now : GoTime) (pr : Bool) : RunEnv :=
  { outputDir := "out", mkdirOK := true, lockOK := true, openOK := true,
    initSchemaOK := true, pragmasOK := true, scanOK := true,
    indexMode := "memory", indexPragmasOK := true, buildIndexesOK := true,
    finalizeOK := true, renameOK := true, symlinkCreateOK := true,
    symlinkRenameOK := true, pruneOK := pr, now := now, nowNano := 1 }

/-- Counterexample to C6 as stated: `RunScan` stamps the snapshot name with
the local wall clock, not UTC — `time.Now().Format(...)` carries the local
zone and no `.UTC()` conversion is applied.  At Unix time 0 in a UTC+1 zone
the published name is `dug-19700101-010000.db`, not `dug-19700101-000000.db`
as the UTC reading requires. -/
theorem C6_counterexample :
    (runScan (envOK ⟨0, 3600⟩ true)).renamedTo =
      some "out/dug-19700101-010000.db" ∧
    snapshotName ⟨0, 3600⟩ ≠ snapshotName ⟨0, 0⟩ := by
  refine ⟨rfl, ?_⟩
  decide

/-- Claim C6 (corrected): on a successful run the temporary store is renamed
to `dug-<YYYYMMDD-HHMMSS>.db` where the timestamp is the local wall clock
(the UTC instant shifted by the zone offset; it equals the UTC stamp exactly
when the offset is zero), and the `latest.db` symlink is refreshed
atomically: stale temp link removed, temp symlink created, then renamed over
`latest.db`. -/
theorem C6_rename_and_symlink (env : RunEnv)
    (h1 : env.mkdirOK = true) (h2 : env.lockOK = true)
    (h3 : env.openOK = true) (h4 : env.initSchemaOK = true)
    (h5 : env.pragmasOK = true) (h6 : env.scanOK = true)
    (h7 : env.indexPragmasOK = true) (h8 : env.buildIndexesOK = true)
    (h9 : env.finalizeOK = true) (h10 : env.renameOK = true)
    (h11 : env.symlinkCreateOK = true) (h12 : env.symlinkRenameOK = true) :
    (runScan env).result =
      .ok (pjoin env.outputDir (snapshotName env.now)) ∧
    (runScan env).renamedTo =
      some (pjoin env.outputDir (snapshotName env.now)) ∧
    snapshotName env.now =
      "dug-" ++ goFormatTS ⟨env.now.unixSec, env.now.offsetSec⟩ ++ ".db" ∧
    (env.now.offsetSec = 0 →
      snapshotName env.now = snapshotName ⟨env.now.unixSec, 0⟩) ∧
    (runScan env).actions =
      [.remove (pjoin env.outputDir ".latest.db.tmp"),
       .symlink (snapshotName env.now)
         (pjoin env.outputDir ".latest.db.tmp"),
       .rename (pjoin env.outputDir ".latest.db.tmp")
         (pjoin env.outputDir "latest.db")] := by
  have hnow : (⟨env.now.unixSec, env.now.offsetSec⟩ : GoTime) = env.now := by
    rfl
  have hnow0 : env.now.offsetSec = 0 →
      snapshotName env.now = snapshotName ⟨env.now.unixSec, 0⟩ := by
    intro h0
    rw [← hnow, h0]
  refine ⟨?_, ?_, by rw [hnow]; rfl, hnow0, ?_⟩ <;>
    simp [runScan, snapshotName, h1, h2, h3, h4, h5, h6, h7, h8, h9, h10,
      h11, h12]

/-- Witness for C6 at an all-success environment in UTC. -/
theorem C6_rename_and_symlink_witness :
    (runScan (envOK ⟨0, 0⟩ true)).result =
      .ok (pjoin "out" (snapshotName ⟨0, 0⟩)) ∧
    (runScan (envOK ⟨0, 0⟩ true)).actions =
      [.remove (pjoin "out" ".latest.db.tmp"),
       .symlink (snapshotName ⟨0, 0⟩) (pjoin "out" ".latest.db.tmp"),
       .rename (pjoin "out" ".latest.db.tmp") (pjoin "out" "latest.db")] :=
  ⟨(C6_rename_and_symlink (envOK ⟨0, 0⟩ true) rfl rfl rfl rfl rfl rfl rfl
      rfl rfl rfl rfl rfl).1,
   (C6_rename_and_symlink (envOK ⟨0, 0⟩ true) rfl rfl rfl rfl rfl rfl rfl
      rfl rfl rfl rfl rfl).2.2.2.2⟩

/-- Counterexample to C7 as stated: the worker's error send is non-blocking
with a `default:` arm, so when the error channel is full a failing readdir
emits NO error record (the zero dir-completion is still emitted). -/
theorem C7_counterexample :
    (readdirFailure false 5 2 "/d" "permission denied").1 = [] ∧
    (readdirFailure false 5 2 "/d" "permission denied").2 =
      ⟨5, 2, 0, 0, 0, 0⟩ :=
  ⟨rfl, rfl⟩

/-- Claim C7 (corrected): a failing readdir always emits the all-zero
dir-completion — the record of a childless node with no direct totals, whose
canonical rollup is the zero rollup, so the parent still completes — and it
emits exactly one error record when the error channel has capacity, none
when it is full. -/
theorem C7_readdir_failure (free : Bool) (dirID parentID : Int)
    (path msg : String) :
    (readdirFailure free dirID parentID path msg).2 =
      ⟨dirID, parentID, 0, 0, 0, 0⟩ ∧
    (readdirFailure free dirID parentID path msg).1 =
      (if free then [⟨path, msg⟩] else []) ∧
    (readdirFailure free dirID parentID path msg).2 =
      recOf parentID (.node dirID 0 0 0 []) ∧
    rollupOf (.node dirID 0 0 0 []) = ⟨dirID, 0, 0, 0, 0⟩ := by
  refine ⟨rfl, rfl, ?_, ?_⟩
  · simp [readdirFailure, recOf, DirTree.id, DirTree.fsize, DirTree.fblocks,
      DirTree.fcount, DirTree.children]
  · simp [rollupOf, sumSize, sumBlocks, sumFiles, sumDirs]

/-- Witness for C7 at a concrete failing directory with a free channel. -/
theorem C7_readdir_failure_witness :
    (readdirFailure true 5 2 "/d" "permission denied").2 =
      ⟨5, 2, 0, 0, 0, 0⟩ ∧
    (readdirFailure true 5 2 "/d" "permission denied").1 =
      (if true then [⟨"/d", "permission denied"⟩] else []) :=
  ⟨(C7_readdir_failure true 5 2 "/d" "permission denied").1,
   (C7_readdir_failure true 5 2 "/d" "permission denied").2.1⟩

/-- The id/parent invariant of the seeded walk: ids are exactly 1,2,…
in discovery order and only the seed row carries parent id 0. -/
theorem buildDirs_spec (p n : String) :
    ∀ (ds : List (Nat × String × String × Int)) (rows : List Dir)
      (seq : Int),
      seq = (rows.length : Int) →
      rows.map Dir.id =
        (List.range rows.length).map (fun i : Nat => (i : Int) + 1) →
      (∀ r ∈ rows, 1 ≤ r.id) →
      (∀ r ∈ rows, r.parentID = 0 → r = seedRoot p n) →
      (buildDirs rows seq ds).map Dir.id =
        (List.range (buildDirs rows seq ds).length).map
          (fun i : Nat => (i : Int) + 1) ∧
      (∀ r ∈ buildDirs rows seq ds, r.parentID = 0 → r = seedRoot p n) := by
  intro ds
  induction ds with
  | nil =>
    intro rows seq h1 h2 h3 h4
    exact ⟨h2, h4⟩
  | cons d rest ih =>
    intro rows seq h1 h2 h3 h4
    obtain ⟨pidx, path, name, depth⟩ := d
    have hparpos : 1 ≤ (rows.getD pidx ⟨1, "", "", 0, 0⟩).id := by
      by_cases hlt : pidx < rows.length
      · rw [List.getD_eq_getElem _ _ hlt]
        exact h3 _ (List.getElem_mem _)
      · rw [List.getD_eq_default]
        omega
    rw [buildDirs]
    apply ih
    · simp only [List.length_append, List.length_cons, List.length_nil]
      push_cast
      omega
    · simp only [List.map_append, List.length_append, List.length_cons,
        List.length_nil, List.map_cons, List.map_nil]
      rw [List.range_succ, List.map_append, h2, h1]
      rfl
    · intro r hr
      rcases List.mem_append.mp hr with h | h
      · exact h3 r h
      · simp only [List.mem_cons, List.not_mem_nil, or_false] at h
        rw [h]
        show 1 ≤ seq + 1
        rw [h1]
        omega
    · intro r hr h0
      rcases List.mem_append.mp hr with h | h
      · exact h4 r h h0
      · exfalso
        simp only [List.mem_cons, List.not_mem_nil, or_false] at h
        rw [h] at h0
        simp only at h0
        omega

/-- Claim C8 (modelled from the spec, the current `Scanner.Run` being absent
from the source tree): the seeded root row has id 1, parent id 0, depth 0;
every other directory row's id comes from the monotonic process-wide counter
(ids are exactly 1,2,… in discovery order, hence assigned once), and the
root is the unique row with parent id 0. -/
theorem C8_root_seeding (rootPath rootName : String)
    (ds : List (Nat × String × String × Int)) :
    (seedRoot rootPath rootName).id = 1 ∧
    (seedRoot rootPath rootName).parentID = 0 ∧
    (seedRoot rootPath rootName).depth = 0 ∧
    (buildDirs [seedRoot rootPath rootName] 1 ds).map Dir.id =
      (List.range (buildDirs [seedRoot rootPath rootName] 1 ds).length).map
        (fun i : Nat => (i : Int) + 1) ∧
    ((buildDirs [seedRoot rootPath rootName] 1 ds).map Dir.id).Nodup ∧
    (∀ r ∈ buildDirs [seedRoot rootPath rootName] 1 ds,
      r.parentID = 0 → r = seedRoot rootPath rootName) := by
  have h := buildDirs_spec rootPath rootName ds [seedRoot rootPath rootName]
    1 (by simp) (by simp [seedRoot, List.range_succ]) (by simp [seedRoot])
    (by
      intro r hr h0
      simp only [List.mem_cons, List.not_mem_nil, or_false] at hr
      exact hr)
  refine ⟨rfl, rfl, rfl, h.1, ?_, h.2⟩
  rw [h.1]
  apply List.Nodup.map
  · intro a b hab
    simp only at hab
    omega
  · exact List.nodup_range _

/-- Witness for C8 at a concrete two-discovery walk. -/
theorem C8_root_seeding_witness :
    (seedRoot "/r" "r").id = 1 ∧
    (buildDirs [seedRoot "/r" "r"] 1
      [(0, "/r/a", "a", 1), (1, "/r/a/b", "b", 2)]).map Dir.id =
      (List.range (buildDirs [seedRoot "/r" "r"] 1
        [(0, "/r/a", "a", 1), (1, "/r/a/b", "b", 2)]).length).map
        (fun i : Nat => (i : Int) + 1) ∧
    (∀ r ∈ buildDirs [seedRoot "/r" "r"] 1
        [(0, "/r/a", "a", 1), (1, "/r/a/b", "b", 2)],
      r.parentID = 0 → r = seedRoot "/r" "r") :=
  ⟨(C8_root_seeding "/r" "r"
     [(0, "/r/a", "a", 1), (1, "/r/a/b", "b", 2)]).1,
   (C8_root_seeding "/r" "r"
     [(0, "/r/a", "a", 1), (1, "/r/a/b", "b", 2)]).2.2.2.1,
   (C8_root_seeding "/r" "r"
     [(0, "/r/a", "a", 1), (1, "/r/a/b", "b", 2)]).2.2.2.2.2⟩

/-- Counterexample to C9 as stated: a pruning failure does not abort the
run — `RunScan` still returns the snapshot path, with only a warning; the
same holds for a symlink-refresh failure. -/
theorem C9_counterexample :
    (runScan (envOK ⟨0, 0⟩ false)).result =
      .ok "out/dug-19700101-000000.db" ∧
    (runScan (envOK ⟨0, 0⟩ false)).warnings =
      ["warning: failed to prune old snapshots"] :=
  ⟨rfl, rfl⟩

/-- Claim C9 (corrected): the abortable steps (output directory creation,
locking, store creation, schema init, write pragmas, the scan, index
pragmas, index build, finalize, final rename) determine the outcome: the run
returns a snapshot path exactly when they all succeed, regardless of the
symlink-refresh and prune outcomes.  On an abort no snapshot is renamed into
place, the lock is released whenever it was acquired, and the temporary
store is removed whenever the abort came after its creation.  Failures of
the symlink refresh or the pruning only leave warnings on a successful
run. -/
theorem C9_step_failures (env : RunEnv) :
    ((∃ p, (runScan env).result = .ok p) ↔
      (env.mkdirOK = true ∧ env.lockOK = true ∧ env.openOK = true ∧
       env.initSchemaOK = true ∧ env.pragmasOK = true ∧ env.scanOK = true ∧
       (((if env.indexMode == "" then "memory" else env.indexMode)
           != "skip") = true →
         env.indexPragmasOK = true ∧ env.buildIndexesOK = true) ∧
       env.finalizeOK = true ∧ env.renameOK = true)) ∧
    (∀ msg, (runScan env).result = .error msg →
      (runScan env).renamedTo = none ∧
      (runScan env).lockReleased = (runScan env).lockAcquired ∧
      ((runScan env).lockAcquired = true →
        (runScan env).tempRemoved = true)) ∧
    (∀ p, (runScan env).result = .ok p →
      (env.symlinkCreateOK = false ∨ env.symlinkRenameOK = false ∨
        env.pruneOK = false) → (runScan env).warnings ≠ []) := by
  rcases Bool.eq_false_or_eq_true env.mkdirOK with h1 | h1
  swap
  · simp [runScan, h1]
  rcases Bool.eq_false_or_eq_true env.lockOK with h2 | h2
  swap
  · simp [runScan, h1, h2]
  rcases Bool.eq_false_or_eq_true env.openOK with h3 | h3
  swap
  · simp [runScan, h1, h2, h3]
  rcases Bool.eq_false_or_eq_true env.initSchemaOK with h4 | h4
  swap
  · simp [runScan, h1, h2, h3, h4]
  rcases Bool.eq_false_or_eq_true env.pragmasOK with h5 | h5
  swap
  · simp [runScan, h1, h2, h3, h4, h5]
  rcases Bool.eq_false_or_eq_true env.scanOK with h6 | h6
  swap
  · simp [runScan, h1, h2, h3, h4, h5, h6]
  by_cases hsk : (if env.indexMode = "" then "memory" else env.indexMode)
      = "skip"
  · rcases Bool.eq_false_or_eq_true env.finalizeOK with h9 | h9
    swap
    · simp [runScan, h1, h2, h3, h4, h5, h6, hsk, h9]
    rcases Bool.eq_false_or_eq_true env.renameOK with h10 | h10
    swap
    · simp [runScan, h1, h2, h3, h4, h5, h6, hsk, h9, h10]
    refine ⟨?_, ?_, ?_⟩
    · simp [runScan, h1, h2, h3, h4, h5, h6, hsk, h9, h10]
    · intro msg hmsg
      simp [runScan, h1, h2, h3, h4, h5, h6, hsk, h9, h10] at hmsg
    · intro p hp hdisj
      rcases hdisj with h | h | h
      · simp [runScan, h1, h2, h3, h4, h5, h6, hsk, h9, h10, h]
      · rcases Bool.eq_false_or_eq_true env.symlinkCreateOK with hc | hc <;>
          simp [runScan, h1, h2, h3, h4, h5, h6, hsk, h9, h10, h, hc]
      · simp [runScan, h1, h2, h3, h4, h5, h6, hsk, h9, h10, h]
  · rcases Bool.eq_false_or_eq_true env.indexPragmasOK with h7 | h7
    swap
    · simp [runScan, h1, h2, h3, h4, h5, h6, hsk, h7]
    rcases Bool.eq_false_or_eq_true env.buildIndexesOK with h8 | h8
    swap
    · simp [runScan, h1, h2, h3, h4, h5, h6, hsk, h7, h8]
    rcases Bool.eq_false_or_eq_true env.finalizeOK with h9 | h9
    swap
    · simp [runScan, h1, h2, h3, h4, h5, h6, hsk, h7, h8, h9]
    rcases Bool.eq_false_or_eq_true env.renameOK with h10 | h10
    swap
    · simp [runScan, h1, h2, h3, h4, h5, h6, hsk, h7, h8, h9, h10]
    refine ⟨?_, ?_, ?_⟩
    · simp [runScan, h1, h2, h3, h4, h5, h6, hsk, h7, h8, h9, h10]
    · intro msg hmsg
      simp [runScan, h1, h2, h3, h4, h5, h6, hsk, h7, h8, h9, h10] at hmsg
    · intro p hp hdisj
      rcases hdisj with h | h | h
      · simp [runScan, h1, h2, h3, h4, h5, h6, hsk, h7, h8, h9, h10, h]
      · rcases Bool.eq_false_or_eq_true env.symlinkCreateOK with hc | hc <;>
          simp [runScan, h1, h2, h3, h4, h5, h6, hsk, h7, h8, h9, h10, h, hc]
      · simp [runScan, h1, h2, h3, h4, h5, h6, hsk, h7, h8, h9, h10, h]

/-- Witness for C9: with every abortable step succeeding but pruning failing,
the run still returns a snapshot path and only warns. -/
theorem C9_step_failures_witness :
    (∃ p, (runScan (envOK ⟨0, 0⟩ false)).result = .ok p) ∧
    (runScan (envOK ⟨0, 0⟩ false)).warnings ≠ [] :=
  ⟨(C9_step_failures (envOK ⟨0, 0⟩ false)).1.mpr
      ⟨rfl, rfl, rfl, rfl, rfl, rfl, fun _ => ⟨rfl, rfl⟩, rfl, rfl⟩,
   (C9_step_failures (envOK ⟨0, 0⟩ false)).2.2
      "out/dug-19700101-000000.db" rfl (Or.inr (Or.inr rfl))⟩

end Dug
